import Mathlib

/-!
# hp4: event handlers and graph construction

A shallow embedding of `src/event_handlers.c` and `src/parser.c`.

Conventions of the embedding

* A `struct pipe *`, a `size_t *`, a `long *` and a `struct event *` are
  addresses (`Nat`); the objects they point at live in the heaps of `World`,
  which are total maps from addresses.  Two pointers alias exactly when the
  addresses are equal.
* `size_t` is 64 bits wide: values are `Nat` and every operation that can
  wrap is reduced modulo `2 ^ 64`.
* `long` counters and `int` counters are `Int`; they are only ever
  incremented by a system call result or by one, and are taken not to
  overflow (signed overflow is undefined in C).
* A `pipe_array`, `event_array`, node array or edge array is the `List` of
  its entries; `length` is the length of the list, taken to fit an `int`.
* The results of the system calls a handler makes are inputs of the handler.
* `closes`, `adds`, `reclaims`, `loopexits` record the calls made to
  `close`, `event_add`, the reclamation `splice` and `event_base_loopexit`.
-/

namespace Hp4

/-! ## Constants -/

/-- The chunk size of a splice or tee, `#define MAX_BYTES_TO_SPLICE 65536`. -/
def MAX_BYTES_TO_SPLICE : Nat := 65536

/-- The largest `size_t` (64 bit). -/
def SIZE_MAX : Nat := 2 ^ 64 - 1

/-- Linux `errno` value of EAGAIN. -/
def EAGAIN : Int := 11

/-- Linux `errno` value of ECHILD. -/
def ECHILD : Int := 10

/-- The libevent flag EV_READ. -/
def EV_READ : Nat := 2

/-- The libevent flag EV_WRITE. -/
def EV_WRITE : Nat := 4

/-- The cast `(size_t)bytes` of an `ssize_t`. -/
def to_size_t (bytes : Int) : Nat := (bytes % 2 ^ 64).toNat

/-- The `size_t` computation `x -= bytes` with `bytes` an `ssize_t`. -/
def size_sub (x : Nat) (bytes : Int) : Nat := (((x : Int) - bytes) % 2 ^ 64).toNat

/-! ## Data model -/

/-- The `struct pipe` of pipe.h (not among the sources): the fields the
handlers read and write. -/
structure Pipe where
  read_fd : Int
  write_fd : Int
  read_fd_is_open : Int
  write_fd_is_open : Int
  bytes_written : Nat
  visited : Int
  deriving DecidableEq, Repr

/-- Which end of a pipe a `close` call was made on. -/
inductive PipeEnd where
  | read
  | write
  deriving DecidableEq, Repr

/-- One call of `close`: the pipe (address) and end it was made on, the value
of the open flag of that end when the call was made, and what it returned. -/
structure CloseCall where
  pipe : Nat
  pend : PipeEnd
  flag : Int
  res : Int
  deriving DecidableEq, Repr

/-- The `struct p4_edge` of parser.h. A `char *` is `none` when NULL; the
fields `from` and `to` are `from_id` and `to_id`. -/
structure p4_edge where
  id : Option String
  from_id : Option String
  from_port : Option String
  to_id : Option String
  to_port : Option String
  bytes_spliced : Int
  deriving DecidableEq, Repr

/-- The `struct p4_node` of parser.h. `in_pipes` and `out_pipes` are the
addresses held by the pipe arrays (`none` for a NULL array);
`writable_events` the handles held by the event array. -/
structure p4_node where
  id : Option String
  type : Option String
  subtype : Option String
  cmd : Option String
  name : Option String
  in_pipes : Option (List Nat)
  out_pipes : Option (List Nat)
  writable_events : Option (List Nat)
  pid : Int
  ended : Int
  deriving DecidableEq, Repr

/-- The `struct p4_file`: the node array and the edge array. -/
structure p4_file where
  nodes : List p4_node
  edges : List p4_edge
  deriving DecidableEq, Repr

/-- The memory and the observable calls of the running engine. -/
structure World where
  /-- The `struct pipe` at each address. -/
  pipes : Nat → Pipe
  /-- The `long` at each address (the `bytes_spliced` of an edge). -/
  longs : Nat → Int
  /-- The `size_t` at each address (a `bytes_safely_written`). -/
  sizes : Nat → Nat
  /-- Whether the event with this handle is pending in the event base. -/
  pending : Nat → Bool
  /-- The calls of `close`, newest first. -/
  closes : List CloseCall
  /-- The handles `event_add` was called on, newest first. -/
  adds : List Nat
  /-- The reclamation splices: length requested and result, newest first. -/
  reclaims : List (Nat × Int)
  /-- The graph as it was at each call of `event_base_loopexit`, newest first. -/
  loopexits : List p4_file

/-- The entry `xs[i]` of an array of addresses or handles (0 where C would
read past the end of the array). -/
def entry (xs : List Nat) (i : Nat) : Nat := xs.getD i 0

/-- Store `v` at address `a`. -/
def upd {α : Type} (m : Nat → α) (a : Nat) (v : α) : Nat → α :=
  fun x => if x = a then v else m x

/-- The result of a system call: the returned value and `errno`. -/
structure SysRet where
  ret : Int
  errno : Int
  deriving DecidableEq, Repr

/-- The `struct writable_ev_args` of event_handlers.h. -/
structure writable_ev_args where
  from_pipe : Nat
  to_pipes : List Nat
  to_pipe_idx : Nat
  /-- The array of `long *`: index to address of the counter. -/
  bytes_spliced : Nat → Nat
  bytes_safely_written : Nat
  readable_event : Nat

/-- The `struct readable_ev_args` of event_handlers.h. -/
structure readable_ev_args where
  to_pipes : List Nat
  writable_events : List Nat
  bytes_safely_written : Nat

/-- What the kernel answers during one run of `writable_handler`. -/
structure WritableEnv where
  /-- The splice of `write_single` or the tee of `write_multiple`. -/
  xfer : SysRet
  /-- The reclamation splice to the shared sink. -/
  reclaim : SysRet
  /-- The call `close(from_pipe->read_fd)`. -/
  close_from : Int
  /-- The call `close(to_pipe->write_fd)` in iteration `k` of the loop. -/
  close_to : Nat → Int

/-! ## libevent -/

/-- The call `event_add(ev, NULL)`: the event becomes pending. -/
def event_add (ev : Nat) (w : World) : World :=
  { w with pending := upd w.pending ev true, adds := ev :: w.adds }

/-! ## readable_handler -/

/-- The loop `for (i...) rea->to_pipes->pipes[i]->visited = 0`. -/
def clear_visited : List Nat → (Nat → Pipe) → (Nat → Pipe)
  | [], h => h
  | a :: rest, h => clear_visited rest (upd h a { h a with visited := 0 })

/-- The loop `for (j...) event_add(rea->writable_events->events[j], NULL)`. -/
def add_events : List Nat → World → World
  | [], w => w
  | ev :: rest, w => add_events rest (event_add ev w)

/-- The function `readable_handler` (event_handlers.c 304-317). -/
def readable_handler (what : Nat) (rea : readable_ev_args) (w : World) : World :=
  if what &&& EV_READ = 0 then w
  else
    let w1 := { w with sizes := upd w.sizes rea.bytes_safely_written SIZE_MAX }
    let w2 := { w1 with pipes := clear_visited rea.to_pipes w1.pipes }
    add_events rea.writable_events w2

/-! ## writable_handler -/

/-- The function `write_single` (event_handlers.c 173-198): the returned
`int` and the memory afterwards. `ans` is what the splice answers. -/
def write_single (wea : writable_ev_args) (ans : SysRet) (w : World) : Int × World :=
  let to_pipe := entry wea.to_pipes 0
  let bytes := ans.ret
  if bytes < 0 then
    if ans.errno ≠ EAGAIN then (-1, w) else (0, w)
  else if bytes > 0 then
    let c := wea.bytes_spliced 0
    let w1 := { w with longs := upd w.longs c (w.longs c + bytes) }
    let p := { w1.pipes to_pipe with bytes_written := to_size_t bytes }
    (0, { w1 with pipes := upd w1.pipes to_pipe p })
  else (1, w)

/-- The first part of `write_multiple` (event_handlers.c 204-220), the tee:
`none` when the function returns -1 there. `ans` is what the tee answers. -/
def tee_step (wea : writable_ev_args) (ans : SysRet) (w : World) : Option World :=
  let i := wea.to_pipe_idx
  let to_pipe := entry wea.to_pipes i
  if (w.pipes to_pipe).bytes_written = 0 then
    let bytes := ans.ret
    if bytes < 0 then
      if ans.errno ≠ EAGAIN then none else some w
    else if bytes > 0 then
      let p := { w.pipes to_pipe with bytes_written := to_size_t bytes }
      let w1 := { w with pipes := upd w.pipes to_pipe p }
      let c := wea.bytes_spliced i
      some { w1 with longs := upd w1.longs c (w1.longs c + bytes) }
    else some w
  else some w

/-- The function `write_multiple` (event_handlers.c 200-228). -/
def write_multiple (wea : writable_ev_args) (ans : SysRet) (w : World) : Int × World :=
  let i := wea.to_pipe_idx
  let to_pipe := entry wea.to_pipes i
  match tee_step wea ans w with
  | none => (-1, w)
  | some w1 =>
    let cell := wea.bytes_safely_written
    let w2 :=
      if (w1.pipes to_pipe).bytes_written < w1.sizes cell then
        { w1 with sizes := upd w1.sizes cell (w1.pipes to_pipe).bytes_written }
      else w1
    (0, { w2 with pipes := upd w2.pipes to_pipe { w2.pipes to_pipe with visited := 1 } })

/-- The scan of `writable_handler` (247-254): 1 when no pipe of the array has
`visited == 0`, else 0. -/
def last_writable_handler (ps : List Nat) (h : Nat → Pipe) : Int :=
  if ps.all (fun a => decide ((h a).visited ≠ 0)) then 1 else 0

/-- The loop `for (j...) pipes[j]->bytes_written -= bytes` (275-277). -/
def sub_bytes_written (bytes : Int) : List Nat → (Nat → Pipe) → (Nat → Pipe)
  | [], h => h
  | a :: rest, h =>
    sub_bytes_written bytes rest
      (upd h a { h a with bytes_written := size_sub (h a).bytes_written bytes })

/-- The statement `if (from_pipe->read_fd_is_open == 1 && close(...) == 0)
from_pipe->read_fd_is_open = 0` (290-291). -/
def close_from_pipe (res : Int) (a : Nat) (w : World) : World :=
  if (w.pipes a).read_fd_is_open = 1 then
    let w1 := { w with closes := ⟨a, PipeEnd.read, (w.pipes a).read_fd_is_open, res⟩ :: w.closes }
    if res = 0 then
      { w1 with pipes := upd w1.pipes a { w1.pipes a with read_fd_is_open := 0 } }
    else w1
  else w

/-- The loop over `to_pipes` (292-296), from iteration `k` on. -/
def close_to_pipes (close_to : Nat → Int) : Nat → List Nat → World → World
  | _, [], w => w
  | k, a :: rest, w =>
    let w2 :=
      if (w.pipes a).write_fd_is_open = 1 then
        let w1 := { w with closes :=
                      ⟨a, PipeEnd.write, (w.pipes a).write_fd_is_open, close_to k⟩ :: w.closes }
        if close_to k = 0 then
          { w1 with pipes := upd w1.pipes a { w1.pipes a with write_fd_is_open := 0 } }
        else w1
      else w
    close_to_pipes close_to (k + 1) rest w2

/-- Where `writable_handler` stands before its last `if` (line 285). -/
inductive Progress where
  /-- The handler returned at line 271. -/
  | returned (w : World)
  /-- The handler goes on with these `got_eof` and `last_writable_handler`. -/
  | goes_on (got_eof : Int) (last : Int) (w : World)

/-- Lines 247-283 of `writable_handler`, after `write_multiple`: the scan of
the `visited` flags and, in the last handler of the cycle, the reclamation
splice. `got_eof` is not initialised when the handler is not the last one; it
is not read then (0 here). -/
def reclaim (wea : writable_ev_args) (env : WritableEnv) (w1 : World) : Progress :=
  if last_writable_handler wea.to_pipes w1.pipes = 1 then
    let bytes := env.reclaim.ret
    let w2 := { w1 with reclaims := (w1.sizes wea.bytes_safely_written, bytes) :: w1.reclaims }
    if bytes < 0 then
      if env.reclaim.errno ≠ EAGAIN then Progress.returned w2
      else Progress.goes_on 0 1 w2
    else if bytes > 0 then
      Progress.goes_on 0 1
        { w2 with pipes := sub_bytes_written bytes wea.to_pipes w2.pipes }
    else Progress.goes_on 1 1 w2
  else Progress.goes_on 0 0 w1

/-- Lines 239-284 of `writable_handler`. -/
def transfer (wea : writable_ev_args) (env : WritableEnv) (w : World) : Progress :=
  if wea.to_pipes.length = 1 then
    let r := write_single wea env.xfer w
    Progress.goes_on r.1 1 r.2
  else
    reclaim wea env (write_multiple wea env.xfer w).2

/-- Lines 285-301 of `writable_handler`: the last `if`. -/
def finish (wea : writable_ev_args) (env : WritableEnv) : Progress → World
  | Progress.returned w1 => w1
  | Progress.goes_on got_eof last w1 =>
    if last = 1 then
      if got_eof = 1 then
        close_to_pipes env.close_to 0 wea.to_pipes
          (close_from_pipe env.close_from wea.from_pipe w1)
      else event_add wea.readable_event w1
    else w1

/-- The function `writable_handler` (event_handlers.c 230-302). -/
def writable_handler (what : Nat) (wea : writable_ev_args) (env : WritableEnv)
    (w : World) : World :=
  if what &&& EV_WRITE = 0 then w
  else finish wea env (transfer wea env w)

/-! ## sigchld_handler -/

/-- The `struct sigchld_args` of event_handlers.h (the event base `eb` is
represented by `World.loopexits`). -/
structure sigchld_args where
  n_children_exited : Int
  pf : p4_file

/-- What the kernel answers during one iteration of the loop of
`sigchld_handler`. -/
structure ReapEnv where
  /-- The value `waitpid(-1, &status, WNOHANG)` returns. -/
  p : Int
  /-- The status it stores. -/
  status : Nat
  /-- The `errno` it leaves. -/
  errno : Int
  /-- The closes of `pipe_array_close`: entry `k` of the array, which end. -/
  close_in : Nat → PipeEnd → Int
  /-- The call `close(out_pipe->write_fd)` in iteration `i` of the loop. -/
  close_out : Nat → Int

/-- The macro WTERMSIG of sys/wait.h: the low seven bits of the status. -/
def WTERMSIG (status : Nat) : Nat := status &&& 0x7f

/-- The macro WIFEXITED of sys/wait.h: the low seven bits are zero. -/
def WIFEXITED (status : Nat) : Bool := WTERMSIG status == 0

/-- The macro WIFSIGNALED of sys/wait.h,
`((signed char) ((status & 0x7f) + 1) >> 1) > 0`: the low seven bits are
neither 0 (exited) nor 0x7f (stopped). -/
def WIFSIGNALED (status : Nat) : Bool := 0 < WTERMSIG status && WTERMSIG status < 0x7f

/-- The function `find_node_by_pid` (parser.c 231-239) on the node array: the
index of the first node with this pid and the node there, `none` for NULL. -/
def find_node_by_pid_in (pid : Int) : List p4_node → Option (Nat × p4_node)
  | [] => none
  | pn :: rest =>
    if pid = pn.pid then some (0, pn)
    else (find_node_by_pid_in pid rest).map (fun r => (r.1 + 1, r.2))

/-- The function `find_node_by_pid` (parser.c 231-239). -/
def find_node_by_pid (pf : p4_file) (pid : Int) : Option (Nat × p4_node) :=
  find_node_by_pid_in pid pf.nodes

/-- Close one end of the pipe at `a` if its flag says open, flipping the flag
when the close succeeds. -/
def close_end (res : Int) (a : Nat) (e : PipeEnd) (w : World) : World :=
  match e with
  | PipeEnd.read =>
    if (w.pipes a).read_fd_is_open = 1 then
      let w1 := { w with closes := ⟨a, PipeEnd.read, (w.pipes a).read_fd_is_open, res⟩ :: w.closes }
      if res = 0 then
        { w1 with pipes := upd w1.pipes a { w1.pipes a with read_fd_is_open := 0 } }
      else w1
    else w
  | PipeEnd.write =>
    if (w.pipes a).write_fd_is_open = 1 then
      let w1 := { w with closes := ⟨a, PipeEnd.write, (w.pipes a).write_fd_is_open, res⟩ :: w.closes }
      if res = 0 then
        { w1 with pipes := upd w1.pipes a { w1.pipes a with write_fd_is_open := 0 } }
      else w1
    else w

/-- Modelled from the spec: `pipe_array_close` of pipe.c, which is not
among the sources. "Close the node's inbound pipes"; "each fd is closed
exactly once; the per-end open flag is the authority. Double-close is
prevented by checking the flag before close and flipping it on success."
Each pipe of the array has its read end, then its write end, closed when the
flag of that end is 1. The `int` it returns is only tested for a debug
message and is left out. -/
def pipe_array_close (close_in : Nat → PipeEnd → Int) : Nat → List Nat → World → World
  | _, [], w => w
  | k, a :: rest, w =>
    pipe_array_close close_in (k + 1) rest
      (close_end (close_in k PipeEnd.write) a PipeEnd.write
        (close_end (close_in k PipeEnd.read) a PipeEnd.read w))

/-- The loop over `pn->out_pipes` (event_handlers.c 136-147), from iteration
`i` on. -/
def close_out_pipes (close_out : Nat → Int) : Nat → List Nat → World → World
  | _, [], w => w
  | i, a :: rest, w =>
    let w2 :=
      if (w.pipes a).write_fd_is_open = 1 then
        let close_successful := close_out i
        let w1 := { w with closes :=
                      ⟨a, PipeEnd.write, (w.pipes a).write_fd_is_open, close_successful⟩
                        :: w.closes }
        if close_successful < 0 then w1
        else if close_successful = 0 then
          { w1 with pipes := upd w1.pipes a { w1.pipes a with write_fd_is_open := 0 } }
        else w1
      else w
    close_out_pipes close_out (i + 1) rest w2

/-- Lines 128-160 of `sigchld_handler`: the node `pn`, at index `idx` of the
node array, has been found for the child that ended. The loop over the edges
(150-156) only prints and is left out. -/
def reap_node (env : ReapEnv) (idx : Nat) (pn : p4_node) (sa : sigchld_args)
    (w : World) : sigchld_args × World :=
  let w1 := match pn.in_pipes with
    | none => w
    | some ps => pipe_array_close env.close_in 0 ps w
  let sa1 := { sa with pf := { sa.pf with nodes := sa.pf.nodes.set idx { pn with ended := 1 } } }
  let w2 := match pn.out_pipes with
    | none => w1
    | some ps => close_out_pipes env.close_out 0 ps w1
  if sa1.n_children_exited = (sa1.pf.nodes.length : Int) then
    (sa1, { w2 with loopexits := sa1.pf :: w2.loopexits })
  else (sa1, w2)

/-- The function `sigchld_handler` (event_handlers.c 89-171). The list holds
the answers to the successive calls of `waitpid`; when it is used up the next
`waitpid` finds no child ready (`p == 0`). Returned with the memory are the
answers the handler did not ask for: the children it left unreaped. -/
def sigchld_handler : List ReapEnv → sigchld_args → World →
    sigchld_args × World × List ReapEnv
  | [], sa, w => (sa, w, [])
  | env :: rest, sa, w =>
    if env.p = -1 then
      if env.errno = ECHILD then (sa, w, rest) else (sa, w, rest)
    else if env.p = 0 then (sa, w, rest)
    else if WIFEXITED env.status || (WIFSIGNALED env.status && WTERMSIG env.status == 13) then
      let sa1 := { sa with n_children_exited := sa.n_children_exited + 1 }
      match find_node_by_pid sa1.pf env.p with
      | none => (sa1, w, rest)
      | some (idx, pn) =>
        let r := reap_node env idx pn sa1 w
        sigchld_handler rest r.1 r.2
    else if WIFSIGNALED env.status then (sa, w, rest)
    else (sa, w, rest)

/-! ## The event loop -/

/-- One fan-out group as the loop set it up: the source pipe, the outbound
pipes, one writable event per outbound pipe, the counters, the shared
`bytes_safely_written` and the readable event. -/
structure Session where
  from_pipe : Nat
  to_pipes : List Nat
  writable_events : List Nat
  bytes_spliced : Nat → Nat
  bytes_safely_written : Nat
  readable_event : Nat

/-- The argument of the readable handler of the session. -/
def Session.rea (s : Session) : readable_ev_args :=
  { to_pipes := s.to_pipes, writable_events := s.writable_events,
    bytes_safely_written := s.bytes_safely_written }

/-- The argument of the writable handler of outbound pipe `i`. -/
def Session.wea (s : Session) (i : Nat) : writable_ev_args :=
  { from_pipe := s.from_pipe, to_pipes := s.to_pipes, to_pipe_idx := i,
    bytes_spliced := s.bytes_spliced, bytes_safely_written := s.bytes_safely_written,
    readable_event := s.readable_event }

/-- A handler of the session that the loop runs. -/
inductive Firing where
  | readable (what : Nat)
  | writable (i : Nat) (what : Nat) (env : WritableEnv)

/-- The loop runs a handler. The readable handler may run at any time. The
writable handler of pipe `i` runs only while its event is pending, and the
event stops being pending when it runs (it is not persistent): `none` when
the loop cannot run it. -/
def fire (s : Session) (w : World) : Firing → Option World
  | Firing.readable what => some (readable_handler what s.rea w)
  | Firing.writable i what env =>
    if i < s.to_pipes.length ∧ w.pending (entry s.writable_events i) = true then
      some (writable_handler what (s.wea i) env
        { w with pending := upd w.pending (entry s.writable_events i) false })
    else none

/-- The loop runs a sequence of handlers, first to last. -/
def run (s : Session) : World → List Firing → Option World
  | w, [] => some w
  | w, f :: rest =>
    match fire s w f with
    | none => none
    | some w1 => run s w1 rest

/-- The bytes discarded to the shared sink so far: the sum of the positive
results of the reclamation splices. -/
def discarded (w : World) : Int :=
  (w.reclaims.map (fun r => if 0 < r.2 then r.2 else 0)).sum

/-- A call of a handler with its argument and the kernel's answers. -/
inductive Invocation where
  | writable (what : Nat) (wea : writable_ev_args) (env : WritableEnv)
  | sigchld (envs : List ReapEnv)

/-- The state after one invocation. -/
def invoke (st : sigchld_args × World) : Invocation → sigchld_args × World
  | Invocation.writable what wea env => (st.1, writable_handler what wea env st.2)
  | Invocation.sigchld envs =>
    let r := sigchld_handler envs st.1 st.2
    (r.1, r.2.1)

/-- The state after a sequence of invocations, first to last. -/
def invoke_all (st : sigchld_args × World) (is : List Invocation) : sigchld_args × World :=
  is.foldl invoke st

/-- The number of successful closes of end `e` of the pipe at `a`. -/
def successful_closes (cs : List CloseCall) (a : Nat) (e : PipeEnd) : Nat :=
  cs.countP (fun c => decide (c.pipe = a ∧ c.pend = e ∧ c.res = 0))

/-- The open flag of end `e` of a pipe. -/
def Pipe.open_flag (p : Pipe) : PipeEnd → Int
  | PipeEnd.read => p.read_fd_is_open
  | PipeEnd.write => p.write_fd_is_open

/-- The number of nodes whose `ended` flag is set. -/
def count_ended (pf : p4_file) : Nat :=
  pf.nodes.countP (fun pn => decide (pn.ended ≠ 0))

/-- The open flags of no pipe differ between the two heaps. -/
def same_flags (h h1 : Nat → Pipe) : Prop :=
  ∀ x, (h1 x).read_fd_is_open = (h x).read_fd_is_open ∧
       (h1 x).write_fd_is_open = (h x).write_fd_is_open

/-- The memory `writable_handler` has reached before its last `if`. -/
def Progress.world : Progress → World
  | Progress.returned w => w
  | Progress.goes_on _ _ w => w

/-! ## parser.c: building the graph -/

/-- A JSON value as jansson holds it (`json_t`); reals play no role in a
pipeline description and are left out. -/
inductive Json where
  | null
  | true_
  | false_
  | integer (n : Int)
  | string (s : String)
  | array (elems : List Json)
  | object (members : List (String × Json))

/-- jansson `json_is_object`; false for NULL. -/
def json_is_object : Option Json → Bool
  | some (Json.object _) => true
  | _ => false

/-- jansson `json_is_array`; false for NULL. -/
def json_is_array : Option Json → Bool
  | some (Json.array _) => true
  | _ => false

/-- jansson `json_object_get`: the value of the key, NULL when there is none
or when the value is not an object. -/
def json_object_get (j : Option Json) (key : String) : Option Json :=
  match j with
  | some (Json.object members) => members.lookup key
  | _ => none

/-- jansson `json_string_value`: NULL when the value is not a string. -/
def json_string_value : Option Json → Option String
  | some (Json.string s) => some s
  | _ => none

/-- jansson `json_array_size`: 0 when the value is not an array. -/
def json_array_size : Option Json → Nat
  | some (Json.array elems) => elems.length
  | _ => 0

/-- jansson `json_array_get`: NULL when out of range or not an array. -/
def json_array_get (j : Option Json) (i : Nat) : Option Json :=
  match j with
  | some (Json.array elems) => elems[i]?
  | _ => none

/-- Modelled from the spec: `parse_edge_string` of strutil.c, which is not
among the sources. "*from* and *to* have the form `nodeId` or
`nodeId:portLabel`, where the port label is split on the first colon." The
result is the pair of node id and port label (NULL without a colon); the
outer `none` stands for the NULL the callers test for, which the spec gives no
case of. -/
def parse_edge_string (s : String) : Option (Option String × Option String) :=
  match s.toList.span (fun c => c != ':') with
  | (node, []) => some (some (String.mk node), none)
  | (node, _ :: port) => some (some (String.mk node), some (String.mk port))

/-- The pattern `if ((json_x = json_object_get(...))) { p = malloc(...);
strcpy(p, json_string_value(json_x)); } else p = NULL;` of `parse_p4_edge`
and `parse_p4_node`. The outer `none` is undefined behaviour: `strcpy` from
the NULL that `json_string_value` returns for a value that is no string.
Allocation is taken to succeed. -/
def copy_string : Option Json → Option (Option String)
  | none => some none
  | some j =>
    match json_string_value (some j) with
    | some s => some (some s)
    | none => none

/-- The handling of the `from` and of the `to` field in `parse_p4_edge`
(parser.c 79-121). Outer `none`: undefined behaviour (`parse_edge_string` is
handed NULL); inner `none`: `parse_p4_edge` returns -1; else the node id and
the port. -/
def parse_endpoint : Option Json → Option (Option (Option String × Option String))
  | none => some (some (none, none))
  | some j =>
    match json_string_value (some j) with
    | none => none
    | some s => some (parse_edge_string s)

/-- The function `parse_p4_edge` (parser.c 52-125). Outer `none`: undefined
behaviour; inner `none`: it returns -1; else it returns 0 and this edge. -/
def parse_p4_edge (edge : Option Json) : Option (Option p4_edge) :=
  if json_is_object edge = false then some none
  else
    match copy_string (json_object_get edge "id") with
    | none => none
    | some id =>
      match parse_endpoint (json_object_get edge "from") with
      | none => none
      | some none => some none
      | some (some (from_id, from_port)) =>
        match parse_endpoint (json_object_get edge "to") with
        | none => none
        | some none => some none
        | some (some (to_id, to_port)) =>
          some (some { id := id, from_id := from_id, from_port := from_port,
                       to_id := to_id, to_port := to_port, bytes_spliced := 0 })

/-- The function `parse_p4_node` (parser.c 291-390). The node was allocated
with `calloc`: `pid` and `ended` are 0. `pipe_array_new` and
`event_array_new` are taken to succeed, with empty arrays. -/
def parse_p4_node (node : Option Json) : Option (Option p4_node) :=
  if json_is_object node = false then some none
  else
    match copy_string (json_object_get node "id") with
    | none => none
    | some id =>
      match copy_string (json_object_get node "type") with
      | none => none
      | some type =>
        match copy_string (json_object_get node "subtype") with
        | none => none
        | some subtype =>
          match copy_string (json_object_get node "cmd") with
          | none => none
          | some cmd =>
            match copy_string (json_object_get node "name") with
            | none => none
            | some name =>
              some (some { id := id, type := type, subtype := subtype, cmd := cmd,
                           name := name, in_pipes := some [], out_pipes := some [],
                           writable_events := some [], pid := 0, ended := 0 })

/-- The loop of `p4_edge_array_new` and of `p4_node_array_new`: parse the
entries in order, stop at the first that fails. Outer `none`: undefined
behaviour; inner `none`: the function returns NULL. -/
def parse_entries {α : Type} (parse : Option Json → Option (Option α)) :
    List (Option Json) → Option (Option (List α))
  | [] => some (some [])
  | j :: rest =>
    match parse j with
    | none => none
    | some none => some none
    | some (some a) =>
      match parse_entries parse rest with
      | none => none
      | some none => some none
      | some (some as) => some (some (a :: as))

/-- The function `p4_edge_array_new` (parser.c 148-191). -/
def p4_edge_array_new (edges : Option Json) (length : Nat) : Option (Option (List p4_edge)) :=
  if json_is_array edges = false then some none
  else parse_entries parse_p4_edge ((List.range length).map (json_array_get edges))

/-- The function `p4_node_array_new` (parser.c 392-435). -/
def p4_node_array_new (nodes : Option Json) (length : Nat) : Option (Option (List p4_node)) :=
  if json_is_array nodes = false then some none
  else parse_entries parse_p4_node ((List.range length).map (json_array_get nodes))

/-- The function `p4_file_new` (parser.c 437-488), from the value that
`json_load_file` returns (`none` for NULL). Outer `none`: undefined
behaviour; inner `none`: it returns NULL; else the graph. -/
def p4_file_new (root : Option Json) : Option (Option p4_file) :=
  if root.isNone then some none
  else if json_is_object root = false then some none
  else
    let nodes := json_object_get root "nodes"
    if json_is_array nodes = false then some none
    else
      let edges := json_object_get root "edges"
      if json_is_array edges = false then some none
      else
        match p4_edge_array_new edges (json_array_size edges) with
        | none => none
        | some none => some none
        | some (some pf_edges) =>
          match p4_node_array_new nodes (json_array_size nodes) with
          | none => none
          | some none => some none
          | some (some pf_nodes) => some (some { nodes := pf_nodes, edges := pf_edges })

/-! ## parser.c: lookups -/

/-- The code of the first character of what is left of a C string: 0, the
terminator, when nothing is left. -/
def first_code : List Char → Nat
  | [] => 0
  | c :: _ => c.toNat

/-- The libc function `strlen`: the number of characters before the first
one of code 0. -/
def strlen : List Char → Nat
  | [] => 0
  | c :: rest => if c.toNat = 0 then 0 else strlen rest + 1

/-- The libc function `strncmp`: compare at most `n` characters, stopping
after a terminator; the difference of the first two that differ, else 0.
Characters are compared by code point, which agrees with the comparison of
their bytes as far as equality goes. -/
def strncmp : List Char → List Char → Nat → Int
  | _, _, 0 => 0
  | s1, s2, n + 1 =>
    if first_code s1 ≠ first_code s2 then (first_code s1 : Int) - (first_code s2 : Int)
    else if first_code s1 = 0 then 0
    else strncmp s1.tail s2.tail n

/-- The function `get_node` (parser.c 251-256): NULL when the index is
negative or not below the length. -/
def get_node (nodes : List p4_node) (idx : Int) : Option p4_node :=
  if idx < 0 ∨ (nodes.length : Int) ≤ idx then none
  else nodes[idx.toNat]?

/-- The function `p4_file_get_node` (parser.c 258-260). -/
def p4_file_get_node (pf : p4_file) (idx : Int) : Option p4_node :=
  get_node pf.nodes idx

/-- The loop of `find_node_by_id` (parser.c 222-227) from index `i` on, with
`todo` iterations left. Outer `none`: undefined behaviour (a NULL node or a
NULL id is dereferenced); inner `none`: no iteration returned; else the index
of the node returned and the node. -/
def find_node_by_id_loop (pf : p4_file) (id : String) :
    Nat → Nat → Option (Option (Nat × p4_node))
  | 0, _ => some none
  | todo + 1, i =>
    match p4_file_get_node pf (i : Int) with
    | none => none
    | some pn =>
      match pn.id with
      | none => none
      | some pn_id =>
        if strncmp pn_id.toList id.toList (strlen id.toList + 1) = 0 then some (some (i, pn))
        else find_node_by_id_loop pf id todo (i + 1)

/-- The function `find_node_by_id` (parser.c 221-229): inner `none` is NULL,
else the node returned, with its index in the node array. -/
def find_node_by_id (pf : p4_file) (id : String) : Option (Option (Nat × p4_node)) :=
  find_node_by_id_loop pf id pf.nodes.length 0

/-- The string is a C string: no character of code 0 in it. -/
def is_c_string (s : String) : Bool :=
  s.toList.all (fun c => c.toNat != 0)

/-- The id of the node is present (not NULL), and a C string. -/
def id_present (pn : p4_node) : Bool :=
  match pn.id with
  | some s => is_c_string s
  | none => false

/-- The `bytes_written` of a pipe after the tee step of `write_multiple`
that does not fail: a pipe that still holds bytes is not tee'd to again. -/
def tee_result (bytes_written : Nat) (ans : SysRet) : Nat :=
  if bytes_written = 0 then (if 0 < ans.ret then to_size_t ans.ret else 0)
  else bytes_written

/-- The fan-out group is set up as the loop does: the outbound pipes are
distinct objects, there are two or more, each has its own writable event,
and the readable event is none of these. -/
structure Session.wf (s : Session) : Prop where
  nodup_pipes : s.to_pipes.Nodup
  nodup_events : s.writable_events.Nodup
  same_length : s.writable_events.length = s.to_pipes.length
  readable_ne : s.readable_event ∉ s.writable_events
  fan_out : 2 ≤ s.to_pipes.length

/-- The memory before the loop starts: the edge counters and the
`bytes_written` of the outbound pipes are zero, nothing was discarded, and no
writable event is pending. -/
structure Session.starts (s : Session) (w : World) : Prop where
  counters_zero : ∀ i, i < s.to_pipes.length → w.longs (s.bytes_spliced i) = 0
  bytes_written_zero : ∀ a ∈ s.to_pipes, (w.pipes a).bytes_written = 0
  no_reclaim : w.reclaims = []
  not_pending : ∀ ev ∈ s.writable_events, w.pending ev = false

/-- What holds between the handlers of a fan-out group. -/
structure Inv (s : Session) (w : World) : Prop where
  /-- What was discarded plus what a pipe still holds is within its counter. -/
  bound : ∀ i, i < s.to_pipes.length →
    discarded w + ((w.pipes (entry s.to_pipes i)).bytes_written : Int)
      ≤ w.longs (s.bytes_spliced i)
  /-- While a writable event is pending, `bytes_safely_written` is within
  what every visited pipe holds. -/
  cycle : (∀ ev ∈ s.writable_events, w.pending ev = false) ∨
    (∀ a ∈ s.to_pipes, (w.pipes a).visited ≠ 0 →
      w.sizes s.bytes_safely_written ≤ (w.pipes a).bytes_written)
  /-- A pipe whose writable event is pending is not visited. -/
  armed : ∀ i, i < s.to_pipes.length →
    w.pending (entry s.writable_events i) = true →
    (w.pipes (entry s.to_pipes i)).visited = 0

/-- What holds inside a cycle of a fan-out group, after `write_multiple`. -/
structure MidInv (s : Session) (w : World) : Prop where
  bound : ∀ i, i < s.to_pipes.length →
    discarded w + ((w.pipes (entry s.to_pipes i)).bytes_written : Int)
      ≤ w.longs (s.bytes_spliced i)
  cycle : ∀ a ∈ s.to_pipes, (w.pipes a).visited ≠ 0 →
      w.sizes s.bytes_safely_written ≤ (w.pipes a).bytes_written
  armed : ∀ i, i < s.to_pipes.length →
    w.pending (entry s.writable_events i) = true →
    (w.pipes (entry s.to_pipes i)).visited = 0

/-- The counters of no pipe differ between the two heaps. -/
def same_counts (h h1 : Nat → Pipe) : Prop :=
  ∀ x, (h1 x).bytes_written = (h x).bytes_written ∧ (h1 x).visited = (h x).visited

/-- The discipline of the open flags: every close was attempted with the
flag of its end at 1, and an end has either never been closed with success,
or once, and is then flagged closed. -/
structure CloseInv (w : World) : Prop where
  attempted_open : ∀ c ∈ w.closes, c.flag = 1
  once : ∀ a e, successful_closes w.closes a e = 0 ∨
    (successful_closes w.closes a e = 1 ∧ (w.pipes a).open_flag e = 0)

/-- The child of this answer counts as ended for `sigchld_handler`: a child
was reaped, and it exited or was terminated by signal 13. -/
def counted (env : ReapEnv) : Bool :=
  decide (env.p ≠ -1) && decide (env.p ≠ 0) &&
    (WIFEXITED env.status || (WIFSIGNALED env.status && WTERMSIG env.status == 13))

/-- The answers of `waitpid` over a sequence of invocations, in order. -/
def reaped : List Invocation → List ReapEnv
  | [] => []
  | Invocation.writable _ _ _ :: rest => reaped rest
  | Invocation.sigchld envs :: rest => envs ++ reaped rest

/-- The pids of the children that count as ended among the answers. -/
def counted_pids (envs : List ReapEnv) : List Int :=
  (envs.filter counted).map (fun env => env.p)

/-- About the answers still to come: no child counts as ended twice, each
that does is the child of a node, and of a node not yet flagged ended. -/
structure Good (sa : sigchld_args) (envs : List ReapEnv) : Prop where
  nodup : (counted_pids envs).Nodup
  known : ∀ p ∈ counted_pids envs, p ∈ sa.pf.nodes.map (fun pn => pn.pid)
  fresh : ∀ pn ∈ sa.pf.nodes, pn.ended ≠ 0 → pn.pid ∉ counted_pids envs

/-- What holds of the reaper between the children it reaps. -/
structure ReapInv (sa : sigchld_args) (w : World) : Prop where
  count : sa.n_children_exited = (count_ended sa.pf : Int)
  exits : ∀ pf ∈ w.loopexits, count_ended pf = pf.nodes.length
  pids : (sa.pf.nodes.map (fun pn => pn.pid)).Nodup

/-- What holds between the handlers of a fan-out group once
`readable_handler` has run, whatever the memory was before. -/
structure CycInv (s : Session) (w : World) : Prop where
  /-- While a writable event is pending, `bytes_safely_written` is within
  what every visited pipe holds. -/
  cycle : (∀ ev ∈ s.writable_events, w.pending ev = false) ∨
    (∀ a ∈ s.to_pipes, (w.pipes a).visited ≠ 0 →
      w.sizes s.bytes_safely_written ≤ (w.pipes a).bytes_written)
  /-- A pipe whose writable event is pending is not visited. -/
  armed : ∀ i, i < s.to_pipes.length →
    w.pending (entry s.writable_events i) = true →
    (w.pipes (entry s.to_pipes i)).visited = 0

/-- What holds inside a cycle, after `write_multiple`, once
`readable_handler` has run. -/
structure MidCyc (s : Session) (w : World) : Prop where
  cycle : ∀ a ∈ s.to_pipes, (w.pipes a).visited ≠ 0 →
      w.sizes s.bytes_safely_written ≤ (w.pipes a).bytes_written
  armed : ∀ i, i < s.to_pipes.length →
    w.pending (entry s.writable_events i) = true →
    (w.pipes (entry s.to_pipes i)).visited = 0

/-- The memory in which the writable handler of pipe `i`, fired in `w`,
reaches the scan and the reclamation splice: its event is no longer pending
and `write_multiple` has run. -/
def before_reclaim (s : Session) (i : Nat) (env : WritableEnv) (w : World) : World :=
  (write_multiple (s.wea i) env.xfer
    { w with pending := upd w.pending (entry s.writable_events i) false }).2

/-- The writable handler of one edge runs firing after firing, first to
last: each entry holds the flags `what` of the firing and the kernel's
answers during it. -/
def run_writable (wea : writable_ev_args) : World → List (Nat × WritableEnv) → World
  | w, [] => w
  | w, f :: rest => run_writable wea (writable_handler f.1 wea f.2 w) rest

/-- The sum of the positive results of the splices of these firings. A
firing without the EV_WRITE bit returns before it splices. -/
def spliced_total : List (Nat × WritableEnv) → Int
  | [] => 0
  | f :: rest =>
    (if f.1 &&& EV_WRITE ≠ 0 ∧ 0 < f.2.xfer.ret then f.2.xfer.ret else 0) + spliced_total rest

/-! ## Example inputs -/

/-- A world with every pipe end open, pipe 1 holding 7 bytes tee'd and not
yet reclaimed, all counters zero and nothing pending. -/
def ex_world : World where
  pipes := fun a => ⟨3, 4, 1, 1, if a = 1 then 7 else 0, 0⟩
  longs := fun _ => 0
  sizes := fun _ => 0
  pending := fun _ => false
  closes := []
  adds := []
  reclaims := []
  loopexits := []

/-- The readable arguments of a source (pipe 0) with the two outbound pipes
1 and 2, writable events 11 and 12 and the shared cell 0. -/
def ex_rea : readable_ev_args where
  to_pipes := [1, 2]
  writable_events := [11, 12]
  bytes_safely_written := 0

/-- A world at the start of the loop: every pipe end open, nothing tee'd,
all counters zero, nothing pending, no call made yet. -/
def ex_fresh : World where
  pipes := fun _ => ⟨3, 4, 1, 1, 0, 0⟩
  longs := fun _ => 0
  sizes := fun _ => 0
  pending := fun _ => false
  closes := []
  adds := []
  reclaims := []
  loopexits := []

/-- A fan-out group: source pipe 0, outbound pipes 1 and 2 with writable
events 11 and 12 and edge counters 20 and 21, the shared cell 0 and the
readable event 10. -/
def ex_session : Session where
  from_pipe := 0
  to_pipes := [1, 2]
  writable_events := [11, 12]
  bytes_spliced := fun i => 20 + i
  bytes_safely_written := 0
  readable_event := 10

/-- The writable arguments of a source (pipe 0) with the single outbound
pipe 1. -/
def ex_wea_single : writable_ev_args where
  from_pipe := 0
  to_pipes := [1]
  to_pipe_idx := 0
  bytes_spliced := fun i => 20 + i
  bytes_safely_written := 0
  readable_event := 10

/-- The kernel's answers: the transfer returns `xfer`, the reclamation splice
`reclaim`, and every close succeeds. -/
def ex_env (xfer reclaim : SysRet) : WritableEnv where
  xfer := xfer
  reclaim := reclaim
  close_from := 0
  close_to := fun _ => 0

/-- What is looked at after a run of `ex_session`. -/
structure Seen where
  /-- The open flag of the read end of the source pipe 0. -/
  src_read_open : Int
  /-- The open flags of the write ends of the outbound pipes 1 and 2. -/
  out_write_open : List Int
  /-- The `bytes_written` of the outbound pipes 1 and 2. -/
  out_bytes_written : List Nat
  /-- The edge counters 20 and 21. -/
  counters : List Int
  /-- The reclamation splices: length requested and result, newest first. -/
  reclaims : List (Nat × Int)
  /-- The calls of `event_add`, newest first. -/
  adds : List Nat
  /-- The calls of `close`, newest first. -/
  closes : List CloseCall
  deriving DecidableEq, Repr

/-- What is looked at after a run of `ex_session`. -/
def observe (w : World) : Seen where
  src_read_open := (w.pipes 0).read_fd_is_open
  out_write_open := [(w.pipes 1).write_fd_is_open, (w.pipes 2).write_fd_is_open]
  out_bytes_written := [(w.pipes 1).bytes_written, (w.pipes 2).bytes_written]
  counters := [w.longs 20, w.longs 21]
  reclaims := w.reclaims
  adds := w.adds
  closes := w.closes

/-- A cycle of `ex_session`: consumer 0 is tee'd 100 bytes and consumer 1 is
tee'd 50; 50 are requested and reclaimed. -/
def ex_first_cycle : List Firing :=
  [Firing.readable 2,
   Firing.writable 0 4 (ex_env ⟨100, 0⟩ ⟨0, 0⟩),
   Firing.writable 1 4 (ex_env ⟨50, 0⟩ ⟨50, 0⟩)]

/-- The cycle after `ex_first_cycle`: consumer 1 is tee'd 70 bytes; consumer
0 still holds 50 bytes and is not tee'd to (the 30 bytes a tee would give it
are never asked for); again 50 are requested and reclaimed. -/
def ex_second_cycle : List Firing :=
  [Firing.readable 2,
   Firing.writable 1 4 (ex_env ⟨70, 0⟩ ⟨0, 0⟩),
   Firing.writable 0 4 (ex_env ⟨30, 0⟩ ⟨50, 0⟩)]

/-- Two cycles of `ex_session`. -/
def ex_two_cycles : List Firing := ex_first_cycle ++ ex_second_cycle

/-- The memory after `ex_two_cycles`. -/
def ex_after_two_cycles : World :=
  (run ex_session ex_fresh ex_two_cycles).getD ex_fresh

/-- The minimum of `bytes_safely_written` at the start of a cycle (SIZE_MAX)
and what each pipe of the list holds, `held i` for pipe `i`. -/
def min_held (held : Nat → Nat) (order : List Nat) : Nat :=
  (order.map held).foldr min SIZE_MAX

/-- The handlers of one cycle of a fan-out group: the readable handler, then
the writable handlers of the outbound pipes in the order given. -/
def cycle (what_r : Nat) (whats : Nat → Nat) (envs : Nat → WritableEnv)
    (order : List Nat) : List Firing :=
  Firing.readable what_r :: order.map (fun i => Firing.writable i (whats i) (envs i))

/-- A graph of two nodes: A (child 100) writes to pipe 0, B (child 101)
reads from pipe 1. -/
def ex_graph : p4_file where
  nodes :=
    [{ id := some "A", type := some "EXEC", subtype := none, cmd := some "yes", name := none,
       in_pipes := some [], out_pipes := some [0], writable_events := some [],
       pid := 100, ended := 0 },
     { id := some "B", type := some "EXEC", subtype := none, cmd := some "cat", name := none,
       in_pipes := some [1], out_pipes := some [], writable_events := some [],
       pid := 101, ended := 0 }]
  edges :=
    [{ id := some "e1", from_id := some "A", from_port := none, to_id := some "B",
       to_port := none, bytes_spliced := 0 }]

/-- The reaper's argument at the start of the loop. -/
def ex_sa : sigchld_args where
  n_children_exited := 0
  pf := ex_graph

/-- An answer of `waitpid`: child `p` with this status; every close succeeds. -/
def ex_reap (p : Int) (status : Nat) : ReapEnv where
  p := p
  status := status
  errno := 0
  close_in := fun _ _ => 0
  close_out := fun _ => 0

/-- What is looked at after a run of the reaper on `ex_graph`. -/
structure Reaped where
  /-- The counter `n_children_exited`. -/
  n_children_exited : Int
  /-- The `ended` flags of the nodes. -/
  ended : List Int
  /-- The pids of the children left unreaped by the invocation. -/
  left : List Int
  /-- At each call of `event_base_loopexit`, the number of nodes flagged
  ended and the number of nodes. -/
  loopexits : List (Nat × Nat)
  deriving DecidableEq, Repr

/-- What is looked at after one invocation of the reaper. -/
def observe_reaper (r : sigchld_args × World × List ReapEnv) : Reaped where
  n_children_exited := r.1.n_children_exited
  ended := r.1.pf.nodes.map (fun pn => pn.ended)
  left := r.2.2.map (fun env => env.p)
  loopexits := r.2.1.loopexits.map (fun pf => (count_ended pf, pf.nodes.length))

/-- A node object of a pipeline description. -/
def ex_json_node (id cmd : String) : Json :=
  Json.object [("id", Json.string id), ("type", Json.string "EXEC"), ("cmd", Json.string cmd)]

/-- An edge object of a pipeline description. -/
def ex_json_edge (id src dst : String) : Json :=
  Json.object [("id", Json.string id), ("from", Json.string src), ("to", Json.string dst)]

/-- The description of scenario 5 of the spec: its edges are A -> B -> A. -/
def ex_cyclic : Json :=
  Json.object
    [("nodes", Json.array [ex_json_node "A" "cat", ex_json_node "B" "cat"]),
     ("edges", Json.array [ex_json_edge "e1" "A" "B", ex_json_edge "e2" "B" "A"])]

/-- The graph built from `ex_cyclic`. -/
def ex_cyclic_graph : p4_file where
  nodes :=
    [{ id := some "A", type := some "EXEC", subtype := none, cmd := some "cat", name := none,
       in_pipes := some [], out_pipes := some [], writable_events := some [],
       pid := 0, ended := 0 },
     { id := some "B", type := some "EXEC", subtype := none, cmd := some "cat", name := none,
       in_pipes := some [], out_pipes := some [], writable_events := some [],
       pid := 0, ended := 0 }]
  edges :=
    [{ id := some "e1", from_id := some "A", from_port := none, to_id := some "B",
       to_port := none, bytes_spliced := 0 },
     { id := some "e2", from_id := some "B", from_port := none, to_id := some "A",
       to_port := none, bytes_spliced := 0 }]

/-- Firings of the single-consumer handler: 6 bytes spliced, EAGAIN, a firing
without the EV_WRITE bit, 4 bytes spliced, end of file. -/
def ex_single_firings : List (Nat × WritableEnv) :=
  [(4, ex_env ⟨6, 0⟩ ⟨0, 0⟩), (4, ex_env ⟨-1, EAGAIN⟩ ⟨0, 0⟩), (2, ex_env ⟨9, 0⟩ ⟨0, 0⟩),
   (4, ex_env ⟨4, 0⟩ ⟨0, 0⟩), (4, ex_env ⟨0, 0⟩ ⟨0, 0⟩)]

/-- A node with this id and nothing else. -/
def ex_node (id : String) : p4_node where
  id := some id
  type := none
  subtype := none
  cmd := none
  name := none
  in_pipes := none
  out_pipes := none
  writable_events := none
  pid := 0
  ended := 0

/-- A graph whose nodes are, in order, AB, A, ABC and A again. -/
def ex_ids : p4_file where
  nodes := [ex_node "AB", ex_node "A", ex_node "ABC", { ex_node "A" with pid := 7 }]
  edges := []

/-- The memory after `readable_handler` and the writable handler of consumer
0 have run in `ex_world`, where pipe 1 still holds 7 bytes. -/
def ex_mid_cycle : World :=
  (run ex_session ex_world
    [Firing.readable 2, Firing.writable 0 4 (ex_env ⟨100, 0⟩ ⟨0, 0⟩)]).getD ex_world

/-- The memory after the writable handler of consumer 1 has then run: it is
tee'd 50 bytes, requests 7 and reclaims 5. -/
def ex_end_cycle : World :=
  (fire ex_session ex_mid_cycle
    (Firing.writable 1 4 (ex_env ⟨50, 0⟩ ⟨5, 0⟩))).getD ex_world

/-! ## Theorems -/

/-! ### Arrays -/

theorem entry_mem (xs : List Nat) (i : Nat) (hi : i < xs.length) : entry xs i ∈ xs := by
  unfold entry
  rw [List.getD_eq_getElem _ _ hi]
  exact List.getElem_mem _

theorem entry_eq_get (xs : List Nat) (i : Nat) (hi : i < xs.length) :
    entry xs i = xs.get ⟨i, hi⟩ := by
  unfold entry
  rw [List.getD_eq_getElem _ _ hi]
  rfl

theorem exists_entry_of_mem (xs : List Nat) (a : Nat) (ha : a ∈ xs) :
    ∃ i, i < xs.length ∧ entry xs i = a := by
  obtain ⟨i, hi, h⟩ := List.getElem_of_mem ha
  exact ⟨i, hi, by rw [entry_eq_get _ _ hi]; exact h⟩

theorem entry_inj (xs : List Nat) (hn : xs.Nodup) (i j : Nat) (hi : i < xs.length)
    (hj : j < xs.length) (h : entry xs i = entry xs j) : i = j := by
  rw [entry_eq_get _ _ hi, entry_eq_get _ _ hj] at h
  have := (List.Nodup.get_inj_iff hn).mp h
  simpa using this

/-! ### readable_handler -/

theorem clear_visited_of_not_mem (ps : List Nat) (h : Nat → Pipe) (a : Nat)
    (ha : a ∉ ps) : clear_visited ps h a = h a := by
  induction ps generalizing h with
  | nil => rfl
  | cons b rest ih =>
    simp only [List.mem_cons, not_or] at ha
    simp only [clear_visited]
    rw [ih _ ha.2]
    simp [upd, ha.1]

theorem clear_visited_visited (ps : List Nat) (h : Nat → Pipe) (a : Nat)
    (ha : a ∈ ps) : (clear_visited ps h a).visited = 0 := by
  induction ps generalizing h with
  | nil => simp at ha
  | cons b rest ih =>
    simp only [clear_visited]
    by_cases hr : a ∈ rest
    · exact ih _ hr
    · have hab : a = b := by
        rcases List.mem_cons.mp ha with h1 | h1
        · exact h1
        · exact absurd h1 hr
      rw [clear_visited_of_not_mem _ _ _ hr]
      simp [upd, hab]

/-- Clearing `visited` changes no other field of any pipe. -/
theorem clear_visited_fields (ps : List Nat) (h : Nat → Pipe) (a : Nat) :
    (clear_visited ps h a).bytes_written = (h a).bytes_written ∧
    (clear_visited ps h a).read_fd_is_open = (h a).read_fd_is_open ∧
    (clear_visited ps h a).write_fd_is_open = (h a).write_fd_is_open := by
  induction ps generalizing h with
  | nil => simp [clear_visited]
  | cons b rest ih =>
    simp only [clear_visited]
    rw [(ih _).1, (ih _).2.1, (ih _).2.2]
    by_cases hab : a = b <;> simp [upd, hab]

theorem add_events_pipes (evs : List Nat) (w : World) :
    (add_events evs w).pipes = w.pipes ∧ (add_events evs w).sizes = w.sizes ∧
    (add_events evs w).longs = w.longs ∧ (add_events evs w).reclaims = w.reclaims ∧
    (add_events evs w).closes = w.closes := by
  induction evs generalizing w with
  | nil => simp [add_events]
  | cons e rest ih =>
    simp only [add_events]
    rw [(ih _).1, (ih _).2.1, (ih _).2.2.1, (ih _).2.2.2.1, (ih _).2.2.2.2]
    simp [event_add]

theorem add_events_pending_of_not_mem (evs : List Nat) (w : World) (e : Nat)
    (he : e ∉ evs) : (add_events evs w).pending e = w.pending e := by
  induction evs generalizing w with
  | nil => rfl
  | cons b rest ih =>
    simp only [List.mem_cons, not_or] at he
    simp only [add_events]
    rw [ih _ he.2]
    simp [event_add, upd, he.1]

theorem add_events_pending (evs : List Nat) (w : World) (e : Nat)
    (he : e ∈ evs) : (add_events evs w).pending e = true := by
  induction evs generalizing w with
  | nil => simp at he
  | cons b rest ih =>
    simp only [add_events]
    by_cases hr : e ∈ rest
    · exact ih _ hr
    · have hab : e = b := by
        rcases List.mem_cons.mp he with h1 | h1
        · exact h1
        · exact absurd h1 hr
      rw [add_events_pending_of_not_mem _ _ _ hr]
      simp [event_add, upd, hab]

theorem add_events_adds (evs : List Nat) (w : World) :
    (add_events evs w).adds = evs.reverse ++ w.adds := by
  induction evs generalizing w with
  | nil => simp [add_events]
  | cons e rest ih =>
    simp only [add_events]
    rw [ih]
    simp [event_add]

/-- C3, as stated, fails: pipe 1 of `ex_world` holds 7 bytes when
`readable_handler` runs with the EV_READ bit set, and it still holds 7
afterwards: `bytes_written` is not reset to 0. -/
theorem readable_handler_keeps_bytes_written :
    2 &&& EV_READ ≠ 0 ∧ 1 ∈ ex_rea.to_pipes ∧
    ((readable_handler 2 ex_rea ex_world).pipes 1).bytes_written = 7 ∧
    ¬ ((readable_handler 2 ex_rea ex_world).pipes 1).bytes_written = 0 := by
  decide

/-- What `readable_handler` does when the EV_READ bit is set. -/
theorem readable_handler_spec (what : Nat) (rea : readable_ev_args) (w : World)
    (hw : what &&& EV_READ ≠ 0) :
    (readable_handler what rea w).sizes rea.bytes_safely_written = SIZE_MAX ∧
    (∀ a ∈ rea.to_pipes, ((readable_handler what rea w).pipes a).visited = 0) ∧
    (∀ ev ∈ rea.writable_events, (readable_handler what rea w).pending ev = true) ∧
    (readable_handler what rea w).adds = rea.writable_events.reverse ++ w.adds ∧
    (∀ a, ((readable_handler what rea w).pipes a).bytes_written
            = (w.pipes a).bytes_written) := by
  simp only [readable_handler, if_neg hw]
  refine ⟨?_, ?_, ?_, ?_, ?_⟩
  · rw [(add_events_pipes _ _).2.1]
    simp [upd]
  · intro a ha
    rw [(add_events_pipes _ _).1]
    exact clear_visited_visited _ _ _ ha
  · intro ev hev
    exact add_events_pending _ _ _ hev
  · rw [add_events_adds]
  · intro a
    rw [(add_events_pipes _ _).1]
    exact (clear_visited_fields _ _ _).1

/-- C3, amended: after `readable_handler` has run with the EV_READ bit set,
`bytes_safely_written` is SIZE_MAX, every outbound pipe has `visited == 0`,
every outbound writable event is pending and was passed to `event_add` (in
array order, and nothing else was), and `bytes_written` of every pipe is what
it was before. -/
theorem readable_handler_resets (what : Nat) (rea : readable_ev_args) (w : World)
    (hw : what &&& EV_READ ≠ 0) :
    (readable_handler what rea w).sizes rea.bytes_safely_written = SIZE_MAX ∧
    (∀ a ∈ rea.to_pipes, ((readable_handler what rea w).pipes a).visited = 0) ∧
    (∀ ev ∈ rea.writable_events, (readable_handler what rea w).pending ev = true) ∧
    (readable_handler what rea w).adds = rea.writable_events.reverse ++ w.adds ∧
    (∀ a, ((readable_handler what rea w).pipes a).bytes_written
            = (w.pipes a).bytes_written) :=
  readable_handler_spec what rea w hw

theorem readable_handler_resets_witness :
    (readable_handler 2 ex_rea ex_world).sizes ex_rea.bytes_safely_written = SIZE_MAX ∧
    (∀ a ∈ ex_rea.to_pipes, ((readable_handler 2 ex_rea ex_world).pipes a).visited = 0) ∧
    (∀ ev ∈ ex_rea.writable_events, (readable_handler 2 ex_rea ex_world).pending ev = true) ∧
    (readable_handler 2 ex_rea ex_world).adds = ex_rea.writable_events.reverse ++ ex_world.adds ∧
    (∀ a, ((readable_handler 2 ex_rea ex_world).pipes a).bytes_written
            = (ex_world.pipes a).bytes_written) :=
  readable_handler_resets 2 ex_rea ex_world (by decide)

/-! ### writable_handler: what one firing leaves alone -/

theorem same_flags_refl (h : Nat → Pipe) : same_flags h h := fun _ => ⟨rfl, rfl⟩

theorem same_flags_trans {h h1 h2 : Nat → Pipe} (a : same_flags h h1)
    (b : same_flags h1 h2) : same_flags h h2 :=
  fun x => ⟨(b x).1.trans (a x).1, (b x).2.trans (a x).2⟩

theorem same_flags_bytes_written (h : Nat → Pipe) (a v : Nat) :
    same_flags h (upd h a { h a with bytes_written := v }) := by
  intro x
  by_cases hx : x = a <;> simp [upd, hx]

theorem same_flags_visited (h : Nat → Pipe) (a : Nat) (v : Int) :
    same_flags h (upd h a { h a with visited := v }) := by
  intro x
  by_cases hx : x = a <;> simp [upd, hx]

theorem write_single_frame (wea : writable_ev_args) (ans : SysRet) (w : World) :
    same_flags w.pipes (write_single wea ans w).2.pipes ∧
    (write_single wea ans w).2.closes = w.closes ∧
    (write_single wea ans w).2.adds = w.adds ∧
    (write_single wea ans w).2.pending = w.pending ∧
    (write_single wea ans w).2.reclaims = w.reclaims ∧
    (write_single wea ans w).2.loopexits = w.loopexits := by
  unfold write_single
  simp only []
  split_ifs
  · exact ⟨same_flags_refl _, rfl, rfl, rfl, rfl, rfl⟩
  · exact ⟨same_flags_refl _, rfl, rfl, rfl, rfl, rfl⟩
  · exact ⟨same_flags_bytes_written _ _ _, rfl, rfl, rfl, rfl, rfl⟩
  · exact ⟨same_flags_refl _, rfl, rfl, rfl, rfl, rfl⟩

theorem tee_step_frame (wea : writable_ev_args) (ans : SysRet) (w w1 : World)
    (h : tee_step wea ans w = some w1) :
    same_flags w.pipes w1.pipes ∧ w1.closes = w.closes ∧ w1.adds = w.adds ∧
    w1.pending = w.pending ∧ w1.reclaims = w.reclaims ∧ w1.sizes = w.sizes ∧
    w1.loopexits = w.loopexits := by
  unfold tee_step at h
  simp only [] at h
  split_ifs at h <;> simp only [Option.some.injEq] at h <;> subst h
  · exact ⟨same_flags_refl _, rfl, rfl, rfl, rfl, rfl, rfl⟩
  · exact ⟨same_flags_bytes_written _ _ _, rfl, rfl, rfl, rfl, rfl, rfl⟩
  · exact ⟨same_flags_refl _, rfl, rfl, rfl, rfl, rfl, rfl⟩
  · exact ⟨same_flags_refl _, rfl, rfl, rfl, rfl, rfl, rfl⟩

theorem write_multiple_frame (wea : writable_ev_args) (ans : SysRet) (w : World) :
    same_flags w.pipes (write_multiple wea ans w).2.pipes ∧
    (write_multiple wea ans w).2.closes = w.closes ∧
    (write_multiple wea ans w).2.adds = w.adds ∧
    (write_multiple wea ans w).2.pending = w.pending ∧
    (write_multiple wea ans w).2.reclaims = w.reclaims ∧
    (write_multiple wea ans w).2.loopexits = w.loopexits := by
  unfold write_multiple
  simp only []
  cases ht : tee_step wea ans w with
  | none => exact ⟨same_flags_refl _, rfl, rfl, rfl, rfl, rfl⟩
  | some w1 =>
    obtain ⟨f, c, a, p, r, -, l⟩ := tee_step_frame wea ans w w1 ht
    simp only []
    split_ifs
    · exact ⟨same_flags_trans f (same_flags_visited _ _ _), c, a, p, r, l⟩
    · exact ⟨same_flags_trans f (same_flags_visited _ _ _), c, a, p, r, l⟩

theorem sub_bytes_written_flags (bytes : Int) (ps : List Nat) (h : Nat → Pipe) :
    same_flags h (sub_bytes_written bytes ps h) := by
  induction ps generalizing h with
  | nil => exact same_flags_refl _
  | cons a rest ih =>
    simp only [sub_bytes_written]
    exact same_flags_trans (same_flags_bytes_written _ _ _) (ih _)

theorem transfer_frame (wea : writable_ev_args) (env : WritableEnv) (w : World) :
    same_flags w.pipes (transfer wea env w).world.pipes ∧
    (transfer wea env w).world.closes = w.closes ∧
    (transfer wea env w).world.adds = w.adds ∧
    (transfer wea env w).world.pending = w.pending ∧
    (transfer wea env w).world.loopexits = w.loopexits := by
  unfold transfer reclaim
  obtain ⟨f1, c1, a1, p1, -, l1⟩ := write_single_frame wea env.xfer w
  obtain ⟨f2, c2, a2, p2, -, l2⟩ := write_multiple_frame wea env.xfer w
  simp only []
  split_ifs
  · exact ⟨f1, c1, a1, p1, l1⟩
  · exact ⟨f2, c2, a2, p2, l2⟩
  · exact ⟨f2, c2, a2, p2, l2⟩
  · exact ⟨same_flags_trans f2 (sub_bytes_written_flags _ _ _), c2, a2, p2, l2⟩
  · exact ⟨f2, c2, a2, p2, l2⟩
  · exact ⟨f2, c2, a2, p2, l2⟩

theorem close_from_pipe_frame (res : Int) (a : Nat) (w : World) :
    (close_from_pipe res a w).adds = w.adds ∧
    (close_from_pipe res a w).pending = w.pending ∧
    (close_from_pipe res a w).reclaims = w.reclaims ∧
    (close_from_pipe res a w).longs = w.longs ∧
    (∀ x, ((close_from_pipe res a w).pipes x).write_fd_is_open
            = (w.pipes x).write_fd_is_open) := by
  unfold close_from_pipe
  simp only []
  split_ifs
  · refine ⟨rfl, rfl, rfl, rfl, fun x => ?_⟩
    by_cases hx : x = a <;> simp [upd, hx]
  · exact ⟨rfl, rfl, rfl, rfl, fun _ => rfl⟩
  · exact ⟨rfl, rfl, rfl, rfl, fun _ => rfl⟩

theorem close_to_pipes_frame (f : Nat → Int) (k : Nat) (ps : List Nat) (w : World) :
    (close_to_pipes f k ps w).adds = w.adds ∧
    (close_to_pipes f k ps w).pending = w.pending ∧
    (close_to_pipes f k ps w).reclaims = w.reclaims ∧
    (close_to_pipes f k ps w).longs = w.longs ∧
    (∀ x, ((close_to_pipes f k ps w).pipes x).read_fd_is_open
            = (w.pipes x).read_fd_is_open) := by
  induction ps generalizing k w with
  | nil => exact ⟨rfl, rfl, rfl, rfl, fun _ => rfl⟩
  | cons a rest ih =>
    simp only [close_to_pipes]
    obtain ⟨h1, h2, h3, h4, h5⟩ := ih (k + 1)
      (if (w.pipes a).write_fd_is_open = 1 then
        if f k = 0 then
          { pipes := upd w.pipes a { w.pipes a with write_fd_is_open := 0 },
            longs := w.longs, sizes := w.sizes, pending := w.pending,
            closes := ⟨a, PipeEnd.write, (w.pipes a).write_fd_is_open, f k⟩ :: w.closes,
            adds := w.adds, reclaims := w.reclaims, loopexits := w.loopexits }
        else
          { w with closes := ⟨a, PipeEnd.write, (w.pipes a).write_fd_is_open, f k⟩ :: w.closes }
       else w)
    rw [h1, h2, h3, h4]
    refine ⟨?_, ?_, ?_, ?_, fun x => ?_⟩
    · split_ifs <;> rfl
    · split_ifs <;> rfl
    · split_ifs <;> rfl
    · split_ifs <;> rfl
    · rw [h5]
      split_ifs
      · by_cases hx : x = a <;> simp [upd, hx]
      · rfl
      · rfl

/-- A write end flagged closed stays so through the closing loop. -/
theorem close_to_pipes_keeps_zero (f : Nat → Int) (k : Nat) (ps : List Nat) (w : World)
    (x : Nat) (hx : (w.pipes x).write_fd_is_open = 0) :
    ((close_to_pipes f k ps w).pipes x).write_fd_is_open = 0 := by
  induction ps generalizing k w with
  | nil => exact hx
  | cons a rest ih =>
    simp only [close_to_pipes]
    apply ih
    split_ifs
    · by_cases hxa : x = a <;> simp [upd, hxa, hx]
    · exact hx
    · exact hx

/-- Entry `j` of the array, open before the loop and closed with success in
its iteration, is flagged closed after the loop. -/
theorem close_to_pipes_closes (f : Nat → Int) (k : Nat) (ps : List Nat) (w : World)
    (j : Nat) (hj : j < ps.length)
    (hopen : (w.pipes (ps.get ⟨j, hj⟩)).write_fd_is_open = 1)
    (hres : f (k + j) = 0) :
    ((close_to_pipes f k ps w).pipes (ps.get ⟨j, hj⟩)).write_fd_is_open = 0 := by
  induction ps generalizing k w j with
  | nil => simp at hj
  | cons a rest ih =>
    simp only [close_to_pipes]
    cases j with
    | zero =>
      simp only [List.get, Nat.add_zero] at hopen hres ⊢
      apply close_to_pipes_keeps_zero
      simp [hopen, hres, upd]
    | succ j =>
      simp only [List.get] at hopen ⊢
      have hj2 : j < rest.length := by simpa using hj
      by_cases hc : (w.pipes a).write_fd_is_open = 1 ∧ f k = 0 ∧ rest.get ⟨j, hj2⟩ = a
      · apply close_to_pipes_keeps_zero
        obtain ⟨h1, h2, h3⟩ := hc
        have h3g : rest[j] = a := by simpa using h3
        simp [h1, h2, h3g, upd]
      · apply ih (k + 1) _ j hj2
        · split_ifs with h1 h2
          · have hne : rest[j] ≠ a := fun he => hc ⟨h1, h2, by simpa using he⟩
            have hopen2 : (w.pipes rest[j]).write_fd_is_open = 1 := by simpa using hopen
            simp [upd, hne, hopen2]
          · exact hopen
          · exact hopen
        · rw [← hres]
          congr 1
          omega

/-! ### writable_handler: end of file -/

/-- The last `if` of `writable_handler` when `got_eof == 1`: both closing
steps, from the memory `w1` reached before. -/
theorem close_path (env : WritableEnv) (wea : writable_ev_args) (w w1 : World)
    (hf : same_flags w.pipes w1.pipes) (ha : w1.adds = w.adds) :
    ((w.pipes wea.from_pipe).read_fd_is_open = 1 → env.close_from = 0 →
      ((close_to_pipes env.close_to 0 wea.to_pipes
          (close_from_pipe env.close_from wea.from_pipe w1)).pipes
            wea.from_pipe).read_fd_is_open = 0) ∧
    (∀ k (hk : k < wea.to_pipes.length),
      (w.pipes (wea.to_pipes.get ⟨k, hk⟩)).write_fd_is_open = 1 → env.close_to k = 0 →
      ((close_to_pipes env.close_to 0 wea.to_pipes
          (close_from_pipe env.close_from wea.from_pipe w1)).pipes
            (wea.to_pipes.get ⟨k, hk⟩)).write_fd_is_open = 0) ∧
    (close_to_pipes env.close_to 0 wea.to_pipes
      (close_from_pipe env.close_from wea.from_pipe w1)).adds = w.adds := by
  refine ⟨?_, ?_, ?_⟩
  · intro hopen hres
    rw [(close_to_pipes_frame _ _ _ _).2.2.2.2]
    have h1 : (w1.pipes wea.from_pipe).read_fd_is_open = 1 := by
      rw [(hf _).1]; exact hopen
    simp [close_from_pipe, h1, hres, upd]
  · intro k hk hopen hres
    apply close_to_pipes_closes
    · rw [(close_from_pipe_frame _ _ _).2.2.2.2, (hf _).2]
      exact hopen
    · simpa using hres
  · rw [(close_to_pipes_frame _ _ _ _).1, (close_from_pipe_frame _ _ _).1, ha]

/-- C6: when `writable_handler` runs with the EV_WRITE bit set and the
single-consumer splice returns zero, or (fan-out) this run issues the
reclamation splice and it returns zero, then afterwards the source read end,
if it was flagged open and its close succeeds, is flagged closed; every
outbound write end that was flagged open and whose close succeeds is flagged
closed; and `event_add` was not called: the readable event is not re-armed. -/
theorem writable_handler_eof (what : Nat) (wea : writable_ev_args) (env : WritableEnv)
    (w : World) (hw : what &&& EV_WRITE ≠ 0)
    (heof : (wea.to_pipes.length = 1 ∧ env.xfer.ret = 0) ∨
            (wea.to_pipes.length ≠ 1 ∧
              ∃ len, (writable_handler what wea env w).reclaims = (len, 0) :: w.reclaims)) :
    ((w.pipes wea.from_pipe).read_fd_is_open = 1 → env.close_from = 0 →
      ((writable_handler what wea env w).pipes wea.from_pipe).read_fd_is_open = 0) ∧
    (∀ k (hk : k < wea.to_pipes.length),
      (w.pipes (wea.to_pipes.get ⟨k, hk⟩)).write_fd_is_open = 1 → env.close_to k = 0 →
      ((writable_handler what wea env w).pipes
        (wea.to_pipes.get ⟨k, hk⟩)).write_fd_is_open = 0) ∧
    (writable_handler what wea env w).adds = w.adds ∧
    (writable_handler what wea env w).pending = w.pending := by
  have key : ∃ w1, same_flags w.pipes w1.pipes ∧ w1.adds = w.adds ∧ w1.pending = w.pending ∧
      writable_handler what wea env w =
        close_to_pipes env.close_to 0 wea.to_pipes
          (close_from_pipe env.close_from wea.from_pipe w1) := by
    rcases heof with ⟨hlen, hret⟩ | ⟨hlen, len, hrec⟩
    · refine ⟨w, same_flags_refl _, rfl, rfl, ?_⟩
      simp [writable_handler, hw, transfer, finish, hlen, write_single, hret]
    · obtain ⟨f2, -, a2, p2, -, -⟩ := write_multiple_frame wea env.xfer w
      have hrm := (write_multiple_frame wea env.xfer w).2.2.2.2.1
      unfold writable_handler transfer reclaim at hrec ⊢
      simp only [hw, hlen, if_false] at hrec ⊢
      split_ifs at hrec ⊢ with h1 h2 h3 h4
      · simp only [finish, hrm] at hrec
        have := (List.cons.inj hrec).1
        simp only [Prod.mk.injEq] at this
        omega
      · simp only [finish, if_true, zero_ne_one, if_false, event_add, hrm] at hrec
        have := (List.cons.inj hrec).1
        simp only [Prod.mk.injEq] at this
        omega
      · simp only [finish, if_true, zero_ne_one, if_false, event_add, hrm] at hrec
        have := (List.cons.inj hrec).1
        simp only [Prod.mk.injEq] at this
        omega
      · exact ⟨{ (write_multiple wea env.xfer w).2 with
                  reclaims := ((write_multiple wea env.xfer w).2.sizes wea.bytes_safely_written,
                    env.reclaim.ret) :: (write_multiple wea env.xfer w).2.reclaims },
               f2, a2, p2, by simp [finish]⟩
      · simp only [finish, hrm, zero_ne_one, if_false] at hrec
        exact absurd hrec.symm (List.cons_ne_self _ _)
  obtain ⟨w1, hf, ha, hp, heq⟩ := key
  rw [heq]
  obtain ⟨c1, c2, c3⟩ := close_path env wea w w1 hf ha
  refine ⟨c1, c2, c3, ?_⟩
  rw [(close_to_pipes_frame _ _ _ _).2.1, (close_from_pipe_frame _ _ _).2.1, hp]

theorem writable_handler_eof_witness :
    ((writable_handler 4 ex_wea_single (ex_env ⟨0, 0⟩ ⟨0, 0⟩) ex_fresh).pipes 0).read_fd_is_open = 0 ∧
    ((writable_handler 4 ex_wea_single (ex_env ⟨0, 0⟩ ⟨0, 0⟩) ex_fresh).pipes 1).write_fd_is_open = 0 ∧
    (writable_handler 4 ex_wea_single (ex_env ⟨0, 0⟩ ⟨0, 0⟩) ex_fresh).adds = [] :=
  have h := writable_handler_eof 4 ex_wea_single (ex_env ⟨0, 0⟩ ⟨0, 0⟩) ex_fresh
    (by decide) (Or.inl ⟨rfl, rfl⟩)
  ⟨h.1 rfl rfl, h.2.1 0 (by decide) rfl rfl, h.2.2.1⟩

/-! ### writable_handler: errors -/

theorem last_writable_handler_eq_one_iff (ps : List Nat) (h : Nat → Pipe) :
    last_writable_handler ps h = 1 ↔ ∀ a ∈ ps, (h a).visited ≠ 0 := by
  unfold last_writable_handler
  split_ifs with hc
  · simp only [List.all_eq_true, decide_eq_true_eq] at hc
    simp only [true_iff]
    exact hc
  · simp only [List.all_eq_true, decide_eq_true_eq] at hc
    simp only [zero_ne_one, false_iff]
    exact hc

/-- C4, on the code: a fan-out cycle of `ex_session` in which the tee of
consumer 0 reports EAGAIN. Consumer 1 receives 5 bytes and, being last,
requests a reclamation of 0 bytes (the minimum), which returns 0: the
handler takes this for end of file, closes the source read end and both
outbound write ends, and does not re-arm the readable event (only the two
writable events were ever added). -/
theorem tee_eagain_closes_pipes :
    (run ex_session ex_fresh
      [Firing.readable 2,
       Firing.writable 0 4 (ex_env ⟨-1, EAGAIN⟩ ⟨0, 0⟩),
       Firing.writable 1 4 (ex_env ⟨5, 0⟩ ⟨0, 0⟩)]).map observe
      = some { src_read_open := 0, out_write_open := [0, 0], out_bytes_written := [0, 5],
               counters := [0, 5], reclaims := [(0, 0)], adds := [12, 11],
               closes := [⟨2, PipeEnd.write, 1, 0⟩, ⟨1, PipeEnd.write, 1, 0⟩,
                          ⟨0, PipeEnd.read, 1, 0⟩] } := by
  decide

/-- C5, as stated, fails: in a fan-out cycle of `ex_session` the tee of
consumer 0 fails with errno 5 (EIO); afterwards the source read end and both
outbound write ends are still flagged open and `close` was never called. -/
theorem tee_error_closes_nothing :
    (run ex_session ex_fresh
      [Firing.readable 2,
       Firing.writable 0 4 (ex_env ⟨-1, 5⟩ ⟨0, 0⟩)]).map observe
      = some { src_read_open := 1, out_write_open := [1, 1], out_bytes_written := [0, 0],
               counters := [0, 0], reclaims := [], adds := [12, 11], closes := [] } := by
  decide

/-- C5, amended: when `writable_handler` runs with the EV_WRITE bit set and
the single-consumer splice fails with an error other than EAGAIN, or the
fan-out tee does so in a handler whose pipe is not yet visited in this cycle,
or this run issues the reclamation splice and it does so, then no pipe end is
closed: `close` is not called and every open flag is what it was. In the two
fan-out cases no event is re-armed either: `event_add` is not called and the
pending events are what they were. -/
theorem writable_handler_error (what : Nat) (wea : writable_ev_args) (env : WritableEnv)
    (w : World) (hw : what &&& EV_WRITE ≠ 0)
    (herr :
      (wea.to_pipes.length = 1 ∧ env.xfer.ret < 0 ∧ env.xfer.errno ≠ EAGAIN) ∨
      (wea.to_pipes.length ≠ 1 ∧ wea.to_pipe_idx < wea.to_pipes.length ∧
        (w.pipes (entry wea.to_pipes wea.to_pipe_idx)).visited = 0 ∧
        (w.pipes (entry wea.to_pipes wea.to_pipe_idx)).bytes_written = 0 ∧
        env.xfer.ret < 0 ∧ env.xfer.errno ≠ EAGAIN) ∨
      (wea.to_pipes.length ≠ 1 ∧
        (∃ len, (writable_handler what wea env w).reclaims
                  = (len, env.reclaim.ret) :: w.reclaims) ∧
        env.reclaim.ret < 0 ∧ env.reclaim.errno ≠ EAGAIN)) :
    same_flags w.pipes (writable_handler what wea env w).pipes ∧
    (writable_handler what wea env w).closes = w.closes ∧
    (wea.to_pipes.length ≠ 1 →
      (writable_handler what wea env w).adds = w.adds ∧
      (writable_handler what wea env w).pending = w.pending) := by
  rcases herr with ⟨hlen, hret, herrno⟩ | ⟨hlen, hidx, hvis, hbw, hret, herrno⟩ |
      ⟨hlen, ⟨len, hrec⟩, hret, herrno⟩
  · have hne : ¬ (-1 : Int) = 1 := by decide
    simp [writable_handler, hw, transfer, finish, hlen, write_single, hret, herrno, event_add,
      same_flags_refl]
  · have ht : tee_step wea env.xfer w = none := by
      unfold tee_step
      simp only [hbw, hret, herrno, if_true, ne_eq, not_false_eq_true]
    have hmem : entry wea.to_pipes wea.to_pipe_idx ∈ wea.to_pipes := by
      exact entry_mem _ _ hidx
    have hlast : last_writable_handler wea.to_pipes w.pipes ≠ 1 := by
      rw [Ne, last_writable_handler_eq_one_iff]
      intro hall
      exact hall _ hmem hvis
    simp [writable_handler, hw, transfer, reclaim, finish, hlen, write_multiple, ht, hlast, same_flags_refl]
  · obtain ⟨f2, c2, a2, p2, hrm, -⟩ := write_multiple_frame wea env.xfer w
    unfold writable_handler transfer reclaim at hrec ⊢
    simp only [hw, hlen, if_false] at hrec ⊢
    split_ifs at hrec ⊢ with h1
    · exact ⟨f2, c2, fun _ => ⟨a2, p2⟩⟩
    · simp only [finish, hrm, zero_ne_one, if_false] at hrec
      exact absurd hrec.symm (List.cons_ne_self _ _)

theorem writable_handler_error_witness :
    same_flags ex_fresh.pipes
      (writable_handler 4 (ex_session.wea 0) (ex_env ⟨-1, 5⟩ ⟨0, 0⟩) ex_fresh).pipes ∧
    (writable_handler 4 (ex_session.wea 0) (ex_env ⟨-1, 5⟩ ⟨0, 0⟩) ex_fresh).closes = [] ∧
    (writable_handler 4 (ex_session.wea 0) (ex_env ⟨-1, 5⟩ ⟨0, 0⟩) ex_fresh).adds = [] :=
  have h := writable_handler_error 4 (ex_session.wea 0) (ex_env ⟨-1, 5⟩ ⟨0, 0⟩) ex_fresh
    (by decide) (Or.inr (Or.inl ⟨by decide, by decide, rfl, rfl, by decide, by decide⟩))
  ⟨h.1, h.2.1, (h.2.2 (by decide)).1⟩

/-! ### Fan-out: the safety invariant -/

theorem to_size_t_le (bytes : Int) (h : 0 < bytes) : (to_size_t bytes : Int) ≤ bytes := by
  unfold to_size_t
  omega

theorem size_sub_of_le (x : Nat) (bytes : Int) (h : bytes ≤ x) :
    (size_sub x bytes : Int) ≤ x - bytes := by
  unfold size_sub
  omega

theorem discarded_cons (w : World) (len : Nat) (bytes : Int) :
    discarded { w with reclaims := (len, bytes) :: w.reclaims }
      = (if 0 < bytes then bytes else 0) + discarded w := by
  simp [discarded]

/-- The tee step, when it does not fail. -/
theorem tee_step_spec (wea : writable_ev_args) (ans : SysRet) (w w1 : World)
    (h : tee_step wea ans w = some w1) :
    (w1.pipes (entry wea.to_pipes wea.to_pipe_idx)).bytes_written
      = tee_result (w.pipes (entry wea.to_pipes wea.to_pipe_idx)).bytes_written ans ∧
    (w1.pipes (entry wea.to_pipes wea.to_pipe_idx)).visited
      = (w.pipes (entry wea.to_pipes wea.to_pipe_idx)).visited ∧
    (∀ x, x ≠ entry wea.to_pipes wea.to_pipe_idx → w1.pipes x = w.pipes x) ∧
    (∀ c, w.longs c ≤ w1.longs c) ∧
    ((w1.pipes (entry wea.to_pipes wea.to_pipe_idx)).bytes_written : Int)
        + w.longs (wea.bytes_spliced wea.to_pipe_idx)
      ≤ w1.longs (wea.bytes_spliced wea.to_pipe_idx)
        + (w.pipes (entry wea.to_pipes wea.to_pipe_idx)).bytes_written := by
  unfold tee_step at h
  simp only [] at h
  split_ifs at h with h1 h2 h3 h4 <;> simp only [Option.some.injEq] at h <;> subst h
  · simp only [tee_result, h1, if_true]
    have : ¬ 0 < ans.ret := by omega
    simp [this]
  · have hle := to_size_t_le ans.ret h4
    refine ⟨?_, ?_, ?_, ?_, ?_⟩
    · simp [tee_result, h1, h4, upd]
    · simp [upd]
    · intro x hx
      simp [upd, hx]
    · intro c
      by_cases hc : c = wea.bytes_spliced wea.to_pipe_idx
      · simp only [upd, hc, if_true]; omega
      · simp [upd, hc]
    · simp only [upd, if_true, h1]
      push_cast
      omega
  · have : ¬ 0 < ans.ret := by omega
    simp [tee_result, h1, this]
  · exact ⟨by simp [tee_result, h1], rfl, fun _ _ => rfl, fun _ => le_refl _, by omega⟩

theorem write_multiple_of_none (wea : writable_ev_args) (ans : SysRet) (w : World)
    (h : tee_step wea ans w = none) : write_multiple wea ans w = (-1, w) := by
  simp [write_multiple, h]

/-- The function `write_multiple` when the tee does not fail. -/
theorem write_multiple_spec (wea : writable_ev_args) (ans : SysRet) (w w1 : World)
    (h : tee_step wea ans w = some w1) :
    ((write_multiple wea ans w).2.pipes (entry wea.to_pipes wea.to_pipe_idx)).bytes_written
      = tee_result (w.pipes (entry wea.to_pipes wea.to_pipe_idx)).bytes_written ans ∧
    ((write_multiple wea ans w).2.pipes (entry wea.to_pipes wea.to_pipe_idx)).visited = 1 ∧
    (∀ x, x ≠ entry wea.to_pipes wea.to_pipe_idx →
      (write_multiple wea ans w).2.pipes x = w.pipes x) ∧
    (write_multiple wea ans w).2.sizes wea.bytes_safely_written
      = min (w.sizes wea.bytes_safely_written)
          (tee_result (w.pipes (entry wea.to_pipes wea.to_pipe_idx)).bytes_written ans) ∧
    (∀ c, c ≠ wea.bytes_safely_written → (write_multiple wea ans w).2.sizes c = w.sizes c) ∧
    (∀ c, w.longs c ≤ (write_multiple wea ans w).2.longs c) ∧
    (((write_multiple wea ans w).2.pipes
          (entry wea.to_pipes wea.to_pipe_idx)).bytes_written : Int)
        + w.longs (wea.bytes_spliced wea.to_pipe_idx)
      ≤ (write_multiple wea ans w).2.longs (wea.bytes_spliced wea.to_pipe_idx)
        + (w.pipes (entry wea.to_pipes wea.to_pipe_idx)).bytes_written := by
  obtain ⟨t1, t2, t3, t4, t5⟩ := tee_step_spec wea ans w w1 h
  obtain ⟨-, -, -, -, -, t6, -⟩ := tee_step_frame wea ans w w1 h
  unfold write_multiple
  simp only [h]
  split_ifs with hlt
  · refine ⟨?_, ?_, ?_, ?_, ?_, ?_, ?_⟩
    · simp [upd, t1]
    · simp [upd]
    · intro x hx
      simp [upd, hx, t3 x hx]
    · simp only [upd, if_true]
      rw [t1, t6] at hlt
      rw [t1]
      omega
    · intro c hc
      simp [upd, hc, t6]
    · exact t4
    · simpa [upd] using t5
  · refine ⟨?_, ?_, ?_, ?_, ?_, ?_, ?_⟩
    · simp [upd, t1]
    · simp [upd]
    · intro x hx
      simp [upd, hx, t3 x hx]
    · rw [t1, t6] at hlt
      rw [t6]
      omega
    · intro c _
      rw [t6]
    · exact t4
    · simpa [upd] using t5

theorem sub_bytes_written_of_not_mem (bytes : Int) (ps : List Nat) (h : Nat → Pipe)
    (a : Nat) (ha : a ∉ ps) : sub_bytes_written bytes ps h a = h a := by
  induction ps generalizing h with
  | nil => rfl
  | cons b rest ih =>
    simp only [List.mem_cons, not_or] at ha
    simp only [sub_bytes_written]
    rw [ih _ ha.2]
    simp [upd, ha.1]

theorem sub_bytes_written_of_mem (bytes : Int) (ps : List Nat) (hn : ps.Nodup)
    (h : Nat → Pipe) (a : Nat) (ha : a ∈ ps) :
    (sub_bytes_written bytes ps h a).bytes_written = size_sub (h a).bytes_written bytes := by
  induction ps generalizing h with
  | nil => simp at ha
  | cons b rest ih =>
    simp only [sub_bytes_written]
    rw [List.nodup_cons] at hn
    rcases List.mem_cons.mp ha with hab | hr
    · subst hab
      rw [sub_bytes_written_of_not_mem _ _ _ _ hn.1]
      simp [upd]
    · have hne : a ≠ b := fun e => hn.1 (e ▸ hr)
      rw [ih hn.2 _ hr]
      simp [upd, hne]

theorem sub_bytes_written_visited (bytes : Int) (ps : List Nat) (h : Nat → Pipe) (x : Nat) :
    (sub_bytes_written bytes ps h x).visited = (h x).visited := by
  induction ps generalizing h with
  | nil => rfl
  | cons b rest ih =>
    simp only [sub_bytes_written]
    rw [ih]
    by_cases hx : x = b <;> simp [upd, hx]

theorem same_counts_refl (h : Nat → Pipe) : same_counts h h := fun _ => ⟨rfl, rfl⟩

theorem close_from_pipe_counts (res : Int) (a : Nat) (w : World) :
    same_counts w.pipes (close_from_pipe res a w).pipes ∧
    (close_from_pipe res a w).sizes = w.sizes := by
  unfold close_from_pipe
  simp only []
  split_ifs
  · refine ⟨fun x => ?_, rfl⟩
    by_cases hx : x = a <;> simp [upd, hx]
  · exact ⟨same_counts_refl _, rfl⟩
  · exact ⟨same_counts_refl _, rfl⟩

theorem close_to_pipes_counts (f : Nat → Int) (k : Nat) (ps : List Nat) (w : World) :
    same_counts w.pipes (close_to_pipes f k ps w).pipes ∧
    (close_to_pipes f k ps w).sizes = w.sizes := by
  induction ps generalizing k w with
  | nil => exact ⟨same_counts_refl _, rfl⟩
  | cons a rest ih =>
    simp only [close_to_pipes]
    refine ⟨fun x => ?_, ?_⟩
    · rw [((ih _ _).1 x).1, ((ih _ _).1 x).2]
      split_ifs
      · by_cases hx : x = a <;> simp [upd, hx]
      · exact ⟨rfl, rfl⟩
      · exact ⟨rfl, rfl⟩
    · rw [(ih _ _).2]
      split_ifs <;> rfl

theorem discarded_congr (w w1 : World) (h : w1.reclaims = w.reclaims) :
    discarded w1 = discarded w := by
  simp [discarded, h]

theorem inv_of_quiet (s : Session) (hwf : s.wf) (w : World)
    (hb : ∀ i, i < s.to_pipes.length →
      discarded w + ((w.pipes (entry s.to_pipes i)).bytes_written : Int)
        ≤ w.longs (s.bytes_spliced i))
    (hq : ∀ ev ∈ s.writable_events, w.pending ev = false) : Inv s w := by
  refine ⟨hb, Or.inl hq, fun i hi hp => ?_⟩
  have hi2 : i < s.writable_events.length := by rw [hwf.same_length]; exact hi
  rw [hq _ (entry_mem _ _ hi2)] at hp
  cases hp

/-- The bounds of the cycle hold in a memory `wm` that differs from `w` as
`write_multiple` for pipe `i` makes it differ. -/
theorem midinv_of_tee (s : Session) (hwf : s.wf) (w wm : World) (i : Nat)
    (hi : i < s.to_pipes.length) (hinv : Inv s w)
    (hp : w.pending (entry s.writable_events i) = true)
    (a1 : (wm.pipes (entry s.to_pipes i)).visited ≠ 0 →
      wm.sizes s.bytes_safely_written ≤ (wm.pipes (entry s.to_pipes i)).bytes_written)
    (a2 : wm.sizes s.bytes_safely_written ≤ w.sizes s.bytes_safely_written)
    (b : ∀ x, x ≠ entry s.to_pipes i → wm.pipes x = w.pipes x)
    (c : ∀ c, w.longs c ≤ wm.longs c)
    (d : ((wm.pipes (entry s.to_pipes i)).bytes_written : Int) + w.longs (s.bytes_spliced i)
          ≤ wm.longs (s.bytes_spliced i) + (w.pipes (entry s.to_pipes i)).bytes_written)
    (e : wm.pending = upd w.pending (entry s.writable_events i) false)
    (f : wm.reclaims = w.reclaims) : MidInv s wm := by
  have hi2 : i < s.writable_events.length := by rw [hwf.same_length]; exact hi
  have hcyc : ∀ a ∈ s.to_pipes, (w.pipes a).visited ≠ 0 →
      w.sizes s.bytes_safely_written ≤ (w.pipes a).bytes_written := by
    rcases hinv.cycle with hq | hc
    · rw [hq _ (entry_mem _ _ hi2)] at hp
      cases hp
    · exact hc
  have harm : ∀ j, j < s.to_pipes.length →
      upd w.pending (entry s.writable_events i) false (entry s.writable_events j) = true →
      j ≠ i ∧ (w.pipes (entry s.to_pipes j)).visited = 0 := by
    intro j hj hpj
    by_cases hji : j = i
    · subst hji
      simp [upd] at hpj
    · have hj2 : j < s.writable_events.length := by rw [hwf.same_length]; exact hj
      have hne : entry s.writable_events j ≠ entry s.writable_events i :=
        fun e => hji (entry_inj _ hwf.nodup_events _ _ hj2 hi2 e)
      simp only [upd, hne, if_false] at hpj
      exact ⟨hji, hinv.armed j hj hpj⟩
  have hto : ∀ j, j < s.to_pipes.length → j ≠ i → entry s.to_pipes j ≠ entry s.to_pipes i :=
    fun j hj hji e => hji (entry_inj _ hwf.nodup_pipes _ _ hj hi e)
  have hd := discarded_congr _ _ f
  refine ⟨fun j hj => ?_, fun a ha hv => ?_, fun j hj hpj => ?_⟩
  · rw [hd]
    have hb := hinv.bound j hj
    by_cases hji : j = i
    · subst hji
      omega
    · rw [b _ (hto j hj hji)]
      have := c (s.bytes_spliced j)
      omega
  · by_cases hai : a = entry s.to_pipes i
    · subst hai
      exact a1 hv
    · rw [b _ hai] at hv ⊢
      exact le_trans a2 (hcyc a ha hv)
  · rw [e] at hpj
    obtain ⟨hji, hv⟩ := harm j hj hpj
    rw [b _ (hto j hj hji)]
    exact hv

/-- After the writable event of pipe `i` has fired and `write_multiple` has
run, the bounds of the cycle hold. -/
theorem midinv_write_multiple (s : Session) (hwf : s.wf) (w : World) (i : Nat)
    (hi : i < s.to_pipes.length) (ans : SysRet) (hinv : Inv s w)
    (hp : w.pending (entry s.writable_events i) = true) :
    MidInv s (write_multiple (s.wea i) ans
      { w with pending := upd w.pending (entry s.writable_events i) false }).2 := by
  have hvis : (w.pipes (entry s.to_pipes i)).visited = 0 := hinv.armed i hi hp
  cases ht : tee_step (s.wea i) ans
      { w with pending := upd w.pending (entry s.writable_events i) false } with
  | none =>
    rw [write_multiple_of_none _ _ _ ht]
    exact midinv_of_tee s hwf w _ i hi hinv hp (fun hv => absurd hvis hv) (le_refl _)
      (fun _ _ => rfl) (fun _ => le_refl _) (by simp only []; omega) rfl rfl
  | some w1 =>
    obtain ⟨s1, -, s3, s4, -, s6, s7⟩ := write_multiple_spec _ _ _ _ ht
    obtain ⟨-, -, -, f4, f5, -⟩ := write_multiple_frame (s.wea i) ans
      { w with pending := upd w.pending (entry s.writable_events i) false }
    refine midinv_of_tee s hwf w _ i hi hinv hp (fun _ => ?_) ?_ s3 s6 s7 f4 f5
    · exact le_of_eq_of_le s4 (le_of_le_of_eq (min_le_right _ _) s1.symm)
    · exact le_of_eq_of_le s4 (min_le_left _ _)

theorem quiet_of_last (s : Session) (hwf : s.wf) (wm : World) (hm : MidInv s wm)
    (hl : last_writable_handler s.to_pipes wm.pipes = 1) :
    ∀ ev ∈ s.writable_events, wm.pending ev = false := by
  intro ev hev
  obtain ⟨j, hj, rfl⟩ := exists_entry_of_mem _ _ hev
  have hj2 : j < s.to_pipes.length := by rw [← hwf.same_length]; exact hj
  cases hp : wm.pending (entry s.writable_events j) with
  | false => rfl
  | true =>
    exact absurd (hm.armed j hj2 hp)
      ((last_writable_handler_eq_one_iff _ _).mp hl _ (entry_mem _ _ hj2))

/-- The rest of the writable handler of a fan-out group, after
`write_multiple`, re-establishes the invariant, provided the reclamation
splice returns no more than was requested. -/
theorem inv_finish (s : Session) (hwf : s.wf) (wm : World) (i : Nat) (env : WritableEnv)
    (hm : MidInv s wm)
    (hsp : ∀ r ∈ (finish (s.wea i) env (reclaim (s.wea i) env wm)).reclaims,
      r.2 ≤ (r.1 : Int)) :
    Inv s (finish (s.wea i) env (reclaim (s.wea i) env wm)) := by
  unfold reclaim at hsp ⊢
  have hto : (s.wea i).to_pipes = s.to_pipes := rfl
  have hcell : (s.wea i).bytes_safely_written = s.bytes_safely_written := rfl
  have hre : (s.wea i).readable_event = s.readable_event := rfl
  rw [hto, hcell] at hsp ⊢
  by_cases hl : last_writable_handler s.to_pipes wm.pipes = 1
  · have hq := quiet_of_last s hwf wm hm hl
    have hall := (last_writable_handler_eq_one_iff _ _).mp hl
    have hqr : ∀ ev ∈ s.writable_events,
        upd wm.pending s.readable_event true ev = false := by
      intro ev hev
      have hne : ev ≠ s.readable_event := fun e => hwf.readable_ne (e ▸ hev)
      simp only [upd, hne, if_false]
      exact hq ev hev
    simp only [hl, if_true] at hsp ⊢
    split_ifs at hsp ⊢ with h2 h3 h4
    · -- the splice fails and the handler returns
      simp only [finish]
      refine inv_of_quiet s hwf _ (fun j hj => ?_) hq
      rw [discarded_cons]
      have := hm.bound j hj
      simp only [show ¬ (0 < env.reclaim.ret) by omega, if_false]
      simpa using this
    · -- EAGAIN on the splice
      simp only [finish, if_true, zero_ne_one, if_false, event_add, hre]
      refine inv_of_quiet s hwf _ (fun j hj => ?_) hqr
      have := hm.bound j hj
      simp only [discarded, List.map_cons, List.sum_cons,
        show ¬ (0 < env.reclaim.ret) by omega, if_false] at this ⊢
      simpa using this
    · -- bytes were discarded
      simp only [finish, if_true, zero_ne_one, if_false, event_add, hre]
      refine inv_of_quiet s hwf _ (fun j hj => ?_) hqr
      have hb := hm.bound j hj
      have hmem := entry_mem _ _ hj
      have hc := hm.cycle _ hmem (hall _ hmem)
      have hle : env.reclaim.ret ≤ (wm.sizes s.bytes_safely_written : Int) := by
        have := hsp (wm.sizes s.bytes_safely_written, env.reclaim.ret)
        simp only [finish, if_true, zero_ne_one, if_false, event_add, hto,
          List.mem_cons, true_or] at this
        exact this trivial
      have hsub := size_sub_of_le (wm.pipes (entry s.to_pipes j)).bytes_written
        env.reclaim.ret (by omega)
      simp only [discarded, List.map_cons, List.sum_cons,
        show (0 < env.reclaim.ret) by omega, if_true] at hb ⊢
      rw [sub_bytes_written_of_mem _ _ hwf.nodup_pipes _ _ hmem]
      omega
    · -- end of file
      simp only [finish, if_true, hre, hto]
      have hfrom := close_from_pipe_frame env.close_from (s.wea i).from_pipe
        { wm with reclaims :=
            (wm.sizes s.bytes_safely_written, env.reclaim.ret) :: wm.reclaims }
      have hfromc := close_from_pipe_counts env.close_from (s.wea i).from_pipe
        { wm with reclaims :=
            (wm.sizes s.bytes_safely_written, env.reclaim.ret) :: wm.reclaims }
      have hto2 := close_to_pipes_frame env.close_to 0 s.to_pipes
        (close_from_pipe env.close_from (s.wea i).from_pipe
          { wm with reclaims :=
              (wm.sizes s.bytes_safely_written, env.reclaim.ret) :: wm.reclaims })
      have hto2c := close_to_pipes_counts env.close_to 0 s.to_pipes
        (close_from_pipe env.close_from (s.wea i).from_pipe
          { wm with reclaims :=
              (wm.sizes s.bytes_safely_written, env.reclaim.ret) :: wm.reclaims })
      refine inv_of_quiet s hwf _ (fun j hj => ?_) ?_
      · have hb := hm.bound j hj
        rw [discarded_congr _ _ (hto2.2.2.1.trans hfrom.2.2.1), discarded_cons,
          hto2.2.2.2.1, hfrom.2.2.2.1, (hto2c.1 _).1, (hfromc.1 _).1]
        simp only [show ¬ (0 < env.reclaim.ret) by omega, if_false]
        simpa using hb
      · intro ev hev
        rw [hto2.2.1, hfrom.2.1]
        exact hq ev hev
  · simp only [hl, if_false, finish, zero_ne_one]
    exact ⟨hm.bound, Or.inr hm.cycle, hm.armed⟩

theorem readable_handler_frame (what : Nat) (rea : readable_ev_args) (w : World) :
    (readable_handler what rea w).longs = w.longs ∧
    (readable_handler what rea w).reclaims = w.reclaims ∧
    (readable_handler what rea w).closes = w.closes ∧
    same_flags w.pipes (readable_handler what rea w).pipes := by
  unfold readable_handler
  split_ifs
  · exact ⟨rfl, rfl, rfl, same_flags_refl _⟩
  · obtain ⟨h1, -, h3, h4, h5⟩ := add_events_pipes rea.writable_events
      { pipes := clear_visited rea.to_pipes w.pipes, longs := w.longs,
        sizes := upd w.sizes rea.bytes_safely_written SIZE_MAX, pending := w.pending,
        closes := w.closes, adds := w.adds, reclaims := w.reclaims,
        loopexits := w.loopexits }
    refine ⟨h3, h4, h5, fun x => ?_⟩
    rw [h1]
    exact ⟨(clear_visited_fields _ _ _).2.1, (clear_visited_fields _ _ _).2.2⟩

theorem finish_reclaims (wea : writable_ev_args) (env : WritableEnv) (p : Progress) :
    (finish wea env p).reclaims = p.world.reclaims := by
  cases p with
  | returned w => rfl
  | goes_on g l w =>
    simp only [finish, Progress.world]
    split_ifs
    · rw [(close_to_pipes_frame _ _ _ _).2.2.1, (close_from_pipe_frame _ _ _).2.2.1]
    · rfl
    · rfl

/-- One run of `writable_handler` issues at most one reclamation splice. -/
theorem writable_handler_reclaims (what : Nat) (wea : writable_ev_args) (env : WritableEnv)
    (w : World) :
    (writable_handler what wea env w).reclaims = w.reclaims ∨
    ∃ len, (writable_handler what wea env w).reclaims = (len, env.reclaim.ret) :: w.reclaims := by
  unfold writable_handler
  split_ifs
  · exact Or.inl rfl
  · rw [finish_reclaims]
    unfold transfer reclaim
    have h1 := (write_single_frame wea env.xfer w).2.2.2.2.1
    have h2 := (write_multiple_frame wea env.xfer w).2.2.2.2.1
    simp only []
    split_ifs
    · exact Or.inl h1
    · exact Or.inr ⟨(write_multiple wea env.xfer w).2.sizes wea.bytes_safely_written,
        by simp [Progress.world, h2]⟩
    · exact Or.inr ⟨(write_multiple wea env.xfer w).2.sizes wea.bytes_safely_written,
        by simp [Progress.world, h2]⟩
    · exact Or.inr ⟨(write_multiple wea env.xfer w).2.sizes wea.bytes_safely_written,
        by simp [Progress.world, h2]⟩
    · exact Or.inr ⟨(write_multiple wea env.xfer w).2.sizes wea.bytes_safely_written,
        by simp [Progress.world, h2]⟩
    · exact Or.inl h2

theorem fire_reclaims (s : Session) (w w1 : World) (f : Firing) (h : fire s w f = some w1) :
    ∃ l, w1.reclaims = l ++ w.reclaims := by
  cases f with
  | readable what =>
    simp only [fire, Option.some.injEq] at h
    subst h
    exact ⟨[], (readable_handler_frame _ _ _).2.1⟩
  | writable i what env =>
    simp only [fire] at h
    split_ifs at h
    simp only [Option.some.injEq] at h
    subst h
    rcases writable_handler_reclaims what (s.wea i) env
      { w with pending := upd w.pending (entry s.writable_events i) false } with h1 | ⟨len, h1⟩
    · exact ⟨[], h1⟩
    · exact ⟨[(len, env.reclaim.ret)], h1⟩

theorem inv_start (s : Session) (hwf : s.wf) (w : World) (h0 : s.starts w) : Inv s w := by
  refine inv_of_quiet s hwf w (fun i hi => ?_) h0.not_pending
  rw [h0.counters_zero i hi, h0.bytes_written_zero _ (entry_mem _ _ hi)]
  simp [discarded, h0.no_reclaim]

/-- A handler of the loop keeps the invariant, provided the reclamation
splices return no more than was requested. -/
theorem inv_fire (s : Session) (hwf : s.wf) (w w1 : World) (f : Firing) (hinv : Inv s w)
    (hf : fire s w f = some w1) (hsp : ∀ r ∈ w1.reclaims, r.2 ≤ (r.1 : Int)) :
    Inv s w1 := by
  cases f with
  | readable what =>
    simp only [fire, Option.some.injEq] at hf
    subst hf
    by_cases hw : what &&& EV_READ = 0
    · simpa [readable_handler, hw] using hinv
    · obtain ⟨-, r2, -, -, r5⟩ := readable_handler_spec what s.rea w hw
      obtain ⟨f1, f2, -, -⟩ := readable_handler_frame what s.rea w
      refine ⟨fun i hi => ?_, Or.inr (fun a ha hv => absurd (r2 a ha) hv),
        fun i hi _ => r2 _ (entry_mem _ _ hi)⟩
      rw [discarded_congr _ _ f2, r5, f1]
      exact hinv.bound i hi
  | writable i what env =>
    simp only [fire] at hf
    split_ifs at hf with hc
    simp only [Option.some.injEq] at hf
    subst hf
    obtain ⟨hi, hp⟩ := hc
    by_cases hw : what &&& EV_WRITE = 0
    · simp only [writable_handler, hw, if_true]
      have hi2 : i < s.writable_events.length := by rw [hwf.same_length]; exact hi
      refine ⟨hinv.bound, ?_, fun j hj hpj => ?_⟩
      · rcases hinv.cycle with hq | hc
        · rw [hq _ (entry_mem _ _ hi2)] at hp
          cases hp
        · exact Or.inr hc
      · by_cases hji : entry s.writable_events j = entry s.writable_events i
        · simp [upd, hji] at hpj
        · simp only [upd, hji, if_false] at hpj
          exact hinv.armed j hj hpj
    · have hlen : (s.wea i).to_pipes.length ≠ 1 := by
        have := hwf.fan_out
        show s.to_pipes.length ≠ 1
        omega
      simp only [writable_handler, hw, if_false, transfer, hlen] at hsp ⊢
      exact inv_finish s hwf _ i env (midinv_write_multiple s hwf w i hi env.xfer hinv hp) hsp

theorem run_reclaims (s : Session) (fs : List Firing) (a b : World)
    (h : run s a fs = some b) : ∃ l, b.reclaims = l ++ a.reclaims := by
  induction fs generalizing a with
  | nil =>
    simp only [run, Option.some.injEq] at h
    subst h
    exact ⟨[], rfl⟩
  | cons g more ih =>
    simp only [run] at h
    cases hg : fire s a g with
    | none => simp [hg] at h
    | some c =>
      simp only [hg] at h
      obtain ⟨l1, h1⟩ := fire_reclaims s a c g hg
      obtain ⟨l2, h2⟩ := ih c h
      exact ⟨l2 ++ l1, by rw [h2, h1, List.append_assoc]⟩

theorem run_append (s : Session) (fs later : List Firing) (w w2 : World)
    (h : run s w (fs ++ later) = some w2) :
    ∃ w1, run s w fs = some w1 ∧ run s w1 later = some w2 := by
  induction fs generalizing w with
  | nil => exact ⟨w, rfl, h⟩
  | cons f rest ih =>
    simp only [List.cons_append, run] at h ⊢
    cases hf : fire s w f with
    | none => simp [hf] at h
    | some c =>
      simp only [hf] at h ⊢
      exact ih c h

theorem inv_run (s : Session) (hwf : s.wf) (fs : List Firing) (w w1 : World)
    (hinv : Inv s w) (hr : run s w fs = some w1)
    (hsp : ∀ r ∈ w1.reclaims, r.2 ≤ (r.1 : Int)) : Inv s w1 := by
  induction fs generalizing w with
  | nil =>
    simp only [run, Option.some.injEq] at hr
    subst hr
    exact hinv
  | cons f rest ih =>
    simp only [run] at hr
    cases hf : fire s w f with
    | none => simp [hf] at hr
    | some w2 =>
      simp only [hf] at hr
      obtain ⟨l, hl⟩ := run_reclaims s rest w2 w1 hr
      have hsp2 : ∀ r ∈ w2.reclaims, r.2 ≤ (r.1 : Int) := by
        intro r hr2
        apply hsp
        rw [hl]
        exact List.mem_append_right _ hr2
      exact ih w2 (inv_fire s hwf w w2 f hinv hf hsp2) hr

/-- C1: take a fan-out group with two or more outbound pipes, started with
the edge counters and the `bytes_written` of the outbound pipes at zero,
nothing discarded and no writable event pending, and any execution
`fs ++ later` of its handlers in which a writable handler runs only while its
event is pending (it is armed by `readable_handler` and fires at most once
per arming) and every reclamation splice returns at most the length
requested. At the point reached after `fs`, the bytes discarded to the shared
sink are at most the `bytes_spliced` counter of every outbound edge. That a
tee returns at most what the source pipe holds is not needed. -/
theorem discarded_le_bytes_spliced (s : Session) (hwf : s.wf) (w w2 : World)
    (fs later : List Firing) (h0 : s.starts w) (hr : run s w (fs ++ later) = some w2)
    (hsp : ∀ r ∈ w2.reclaims, r.2 ≤ (r.1 : Int)) :
    ∃ w1, run s w fs = some w1 ∧
      ∀ i, i < s.to_pipes.length → discarded w1 ≤ w1.longs (s.bytes_spliced i) := by
  obtain ⟨w1, h1, h2⟩ := run_append s fs later w w2 hr
  obtain ⟨l, hl⟩ := run_reclaims s later w1 w2 h2
  have hsp1 : ∀ r ∈ w1.reclaims, r.2 ≤ (r.1 : Int) := by
    intro r hr1
    apply hsp
    rw [hl]
    exact List.mem_append_right _ hr1
  refine ⟨w1, h1, fun i hi => ?_⟩
  have hb := (inv_run s hwf fs w w1 (inv_start s hwf w h0) h1 hsp1).bound i hi
  omega

theorem ex_session_wf : ex_session.wf :=
  ⟨by decide, by decide, by decide, by decide, by decide⟩

theorem discarded_le_bytes_spliced_witness :
    run ex_session ex_fresh (ex_first_cycle ++ ex_second_cycle) = some ex_after_two_cycles ∧
    (∀ r ∈ ex_after_two_cycles.reclaims, r.2 ≤ (r.1 : Int)) ∧
    ∃ w1, run ex_session ex_fresh ex_first_cycle = some w1 ∧
      ∀ i, i < ex_session.to_pipes.length →
        discarded w1 ≤ w1.longs (ex_session.bytes_spliced i) :=
  have hr : run ex_session ex_fresh (ex_first_cycle ++ ex_second_cycle)
      = some ex_after_two_cycles := rfl
  have hsp : ∀ r ∈ ex_after_two_cycles.reclaims, r.2 ≤ (r.1 : Int) := by decide
  ⟨hr, hsp, discarded_le_bytes_spliced ex_session ex_session_wf ex_fresh
    ex_after_two_cycles ex_first_cycle ex_second_cycle
    ⟨fun _ _ => rfl, fun _ _ => rfl, rfl, fun _ _ => rfl⟩ hr hsp⟩

/-! ### Fan-out: what is reclaimed -/

/-- C2, as stated, fails: after `ex_first_cycle` the edge counters are 100
and 50. In `ex_second_cycle` consumer 0 is tee'd nothing (its
counter stays 100) and consumer 1 is tee'd 70 (its counter becomes 120), so
the minimum tee'd to a consumer in that cycle is 0; yet 50 bytes are
requested and reclaimed. -/
theorem reclaimed_not_min_teed :
    (run ex_session ex_fresh ex_first_cycle).map observe
      = some { src_read_open := 1, out_write_open := [1, 1], out_bytes_written := [50, 0],
               counters := [100, 50], reclaims := [(50, 50)], adds := [10, 12, 11],
               closes := [] } ∧
    (run ex_session ex_fresh ex_two_cycles).map observe
      = some { src_read_open := 1, out_write_open := [1, 1], out_bytes_written := [0, 20],
               counters := [100, 120], reclaims := [(50, 50), (50, 50)],
               adds := [10, 12, 11, 10, 12, 11], closes := [] } := by
  decide

theorem foldr_min_init (l : List Nat) (acc x : Nat) :
    l.foldr min (min acc x) = min x (l.foldr min acc) := by
  induction l with
  | nil => simp [min_comm]
  | cons a rest ih =>
    simp only [List.foldr_cons, ih]
    omega

theorem tee_step_ok (wea : writable_ev_args) (ans : SysRet) (w : World)
    (hok : ¬ (ans.ret < 0 ∧ ans.errno ≠ EAGAIN)) : ∃ w1, tee_step wea ans w = some w1 := by
  unfold tee_step
  simp only []
  split_ifs with h1 h2 h3 h4
  · exact absurd ⟨h2, h3⟩ hok
  · exact ⟨_, rfl⟩
  · exact ⟨_, rfl⟩
  · exact ⟨_, rfl⟩
  · exact ⟨_, rfl⟩

/-- The writable handlers of the pipes in `order`, none of which has fired in
this cycle while all other pipes have: they all run, and the last one
requests the minimum of `bytes_safely_written` and what the pipes hold. -/
theorem run_handlers (s : Session) (hwf : s.wf) (whats : Nat → Nat)
    (envs : Nat → WritableEnv) (hw : ∀ i, whats i &&& EV_WRITE ≠ 0)
    (hok : ∀ i, ¬ ((envs i).xfer.ret < 0 ∧ (envs i).xfer.errno ≠ EAGAIN))
    (order : List Nat) (wc : World) (last : Nat) (hlast : order.getLast? = some last)
    (hnd : order.Nodup) (hlt : ∀ j ∈ order, j < s.to_pipes.length)
    (h1 : ∀ j ∈ order, (wc.pipes (entry s.to_pipes j)).visited = 0 ∧
      wc.pending (entry s.writable_events j) = true)
    (h2 : ∀ j, j < s.to_pipes.length → j ∉ order →
      (wc.pipes (entry s.to_pipes j)).visited ≠ 0) :
    ∃ w1, run s wc (order.map (fun i => Firing.writable i (whats i) (envs i))) = some w1 ∧
      w1.reclaims =
        ((order.map (fun i => tee_result (wc.pipes (entry s.to_pipes i)).bytes_written
            (envs i).xfer)).foldr min (wc.sizes s.bytes_safely_written),
          (envs last).reclaim.ret) :: wc.reclaims := by
  induction order generalizing wc with
  | nil => simp at hlast
  | cons i rest ih =>
    have hi : i < s.to_pipes.length := hlt i (List.mem_cons_self _ _)
    have hi2 : i < s.writable_events.length := by rw [hwf.same_length]; exact hi
    obtain ⟨hvi, hpi⟩ := h1 i (List.mem_cons_self _ _)
    have hlen : (s.wea i).to_pipes.length ≠ 1 := by
      have := hwf.fan_out
      show s.to_pipes.length ≠ 1
      omega
    obtain ⟨wt, ht⟩ := tee_step_ok (s.wea i) (envs i).xfer
      { wc with pending := upd wc.pending (entry s.writable_events i) false } (hok i)
    obtain ⟨s1, s2, s3, s4, -, -, -⟩ := write_multiple_spec _ _ _ _ ht
    obtain ⟨-, -, -, f4, f5, -⟩ := write_multiple_frame (s.wea i) (envs i).xfer
      { wc with pending := upd wc.pending (entry s.writable_events i) false }
    have hfire : fire s wc (Firing.writable i (whats i) (envs i)) =
        some (finish (s.wea i) (envs i) (reclaim (s.wea i) (envs i)
          (write_multiple (s.wea i) (envs i).xfer
            { wc with pending := upd wc.pending (entry s.writable_events i) false }).2)) := by
      simp [fire, hi, hpi, writable_handler, hw i, transfer, hlen]
    simp only [List.map_cons, run, hfire]
    generalize (write_multiple (s.wea i) (envs i).xfer
      { wc with pending := upd wc.pending (entry s.writable_events i) false }).2 = wm
      at s1 s2 s3 s4 f4 f5
    replace s2 : (wm.pipes (entry s.to_pipes i)).visited = 1 := s2
    replace s3 : ∀ x, x ≠ entry s.to_pipes i → wm.pipes x = wc.pipes x := s3
    replace s4 : wm.sizes s.bytes_safely_written
        = min (wc.sizes s.bytes_safely_written)
            (tee_result (wc.pipes (entry s.to_pipes i)).bytes_written (envs i).xfer) := s4
    replace f4 : wm.pending = upd wc.pending (entry s.writable_events i) false := f4
    replace f5 : wm.reclaims = wc.reclaims := f5
    clear s1
    have hto : ∀ j, j < s.to_pipes.length → j ≠ i → entry s.to_pipes j ≠ entry s.to_pipes i :=
      fun j hj hji e => hji (entry_inj _ hwf.nodup_pipes _ _ hj hi e)
    rw [List.nodup_cons] at hnd
    cases rest with
    | nil =>
      -- the last handler of the cycle
      simp only [List.getLast?_singleton, Option.some.injEq] at hlast
      subst hlast
      have hwt : (s.wea i).to_pipes = s.to_pipes := rfl
      have hwc : (s.wea i).bytes_safely_written = s.bytes_safely_written := rfl
      have hall : last_writable_handler s.to_pipes wm.pipes = 1 := by
        rw [last_writable_handler_eq_one_iff]
        intro a ha
        obtain ⟨j, hj, rfl⟩ := exists_entry_of_mem _ _ ha
        by_cases hji : j = i
        · rw [hji, s2]
          exact one_ne_zero
        · rw [s3 _ (hto j hj hji)]
          exact h2 j hj (by simpa using hji)
      refine ⟨_, rfl, ?_⟩
      rw [finish_reclaims]
      unfold reclaim
      simp only [hwt, hwc, hall, if_true]
      have hsz : wm.sizes s.bytes_safely_written
          = min (tee_result (wc.pipes (entry s.to_pipes i)).bytes_written (envs i).xfer)
              (wc.sizes s.bytes_safely_written) := by
        rw [min_comm]; exact s4
      split_ifs <;> simp [Progress.world, hsz, f5]
    | cons i2 more =>
      -- not the last one
      have hi2v : (wm.pipes (entry s.to_pipes i2)).visited = 0 := by
        have hne : i2 ≠ i := fun e => hnd.1 (e ▸ List.mem_cons_self _ _)
        have hlt2 := hlt i2 (List.mem_cons_of_mem _ (List.mem_cons_self _ _))
        rw [s3 _ (hto i2 hlt2 hne)]
        exact (h1 i2 (List.mem_cons_of_mem _ (List.mem_cons_self _ _))).1
      have hwt : (s.wea i).to_pipes = s.to_pipes := rfl
      have hnot : last_writable_handler s.to_pipes wm.pipes ≠ 1 := by
        rw [Ne, last_writable_handler_eq_one_iff]
        intro hall
        exact hall _ (entry_mem _ _ (hlt i2 (List.mem_cons_of_mem _ (List.mem_cons_self _ _))))
          hi2v
      have hfin : finish (s.wea i) (envs i) (reclaim (s.wea i) (envs i) wm) = wm := by
        simp [reclaim, hwt, hnot, finish]
      rw [hfin]
      have hlast2 : (i2 :: more).getLast? = some last := by
        rw [List.getLast?_cons_cons] at hlast
        exact hlast
      obtain ⟨w1, hrun, hrec⟩ := ih wm hlast2 hnd.2
        (fun j hj => hlt j (List.mem_cons_of_mem _ hj))
        (fun j hj => by
          have hne : j ≠ i := fun e => hnd.1 (e ▸ hj)
          have hltj := hlt j (List.mem_cons_of_mem _ hj)
          have hj2 : j < s.writable_events.length := by rw [hwf.same_length]; exact hltj
          have hev : entry s.writable_events j ≠ entry s.writable_events i :=
            fun e => hne (entry_inj _ hwf.nodup_events _ _ hj2 hi2 e)
          obtain ⟨a, b⟩ := h1 j (List.mem_cons_of_mem _ hj)
          rw [s3 _ (hto j hltj hne), f4]
          exact ⟨a, by simpa [upd, hev] using b⟩)
        (fun j hj hnot2 => by
          by_cases hji : j = i
          · rw [hji, s2]
            exact one_ne_zero
          · rw [s3 _ (hto j hj hji)]
            exact h2 j hj (by
              intro hm
              rcases List.mem_cons.mp hm with e | e
              · exact hji e
              · exact hnot2 e))
      refine ⟨w1, hrun, ?_⟩
      rw [hrec, f5]
      have hmap : (i2 :: more).map (fun j =>
            tee_result (wm.pipes (entry s.to_pipes j)).bytes_written (envs j).xfer)
          = (i2 :: more).map (fun j =>
            tee_result (wc.pipes (entry s.to_pipes j)).bytes_written (envs j).xfer) := by
        apply List.map_congr_left
        intro j hj
        have hne : j ≠ i := fun e => hnd.1 (e ▸ hj)
        rw [s3 _ (hto j (hlt j (List.mem_cons_of_mem _ hj)) hne)]
      rw [hmap, s4, foldr_min_init]
      rfl

/-- C2, amended: in a fan-out cycle (the readable handler with the EV_READ
bit set, then the writable handler of every outbound pipe once, in any order,
none of whose tees fails with an error other than EAGAIN) all handlers run,
and exactly one reclamation splice is issued, by the last one. The length it
requests is the minimum over the outbound pipes of the `bytes_written` they
hold then (capped at SIZE_MAX): for a pipe that held bytes from an earlier
cycle that is what it still held, for the others what the tee of this cycle
gave them. The bytes reclaimed are whatever that splice returns. -/
theorem reclaim_requests_min_held (s : Session) (hwf : s.wf) (w : World) (what_r : Nat)
    (whats : Nat → Nat) (envs : Nat → WritableEnv) (order : List Nat)
    (hr : what_r &&& EV_READ ≠ 0) (hw : ∀ i, whats i &&& EV_WRITE ≠ 0)
    (hok : ∀ i, ¬ ((envs i).xfer.ret < 0 ∧ (envs i).xfer.errno ≠ EAGAIN))
    (hperm : order.Perm (List.range s.to_pipes.length)) :
    ∃ w1 last, order.getLast? = some last ∧
      run s w (cycle what_r whats envs order) = some w1 ∧
      w1.reclaims =
        (min_held (fun i => tee_result (w.pipes (entry s.to_pipes i)).bytes_written
            (envs i).xfer) (List.range s.to_pipes.length),
          (envs last).reclaim.ret) :: w.reclaims := by
  have hne : order ≠ [] := by
    intro h
    have := hperm.length_eq
    rw [h, List.length_range] at this
    have := hwf.fan_out
    simp at *
    omega
  obtain ⟨last, hlast⟩ : ∃ last, order.getLast? = some last := by
    cases h : order.getLast? with
    | none => exact absurd (List.getLast?_eq_none_iff.mp h) hne
    | some l => exact ⟨l, rfl⟩
  obtain ⟨r1, r2, r3, -, r5⟩ := readable_handler_spec what_r s.rea w hr
  obtain ⟨-, f2, -, -⟩ := readable_handler_frame what_r s.rea w
  have hmem : ∀ j, j ∈ order ↔ j < s.to_pipes.length := by
    intro j
    rw [hperm.mem_iff, List.mem_range]
  obtain ⟨w1, hrun, hrec⟩ := run_handlers s hwf whats envs hw hok order
    (readable_handler what_r s.rea w) last hlast
    (hperm.nodup_iff.mpr (List.nodup_range _))
    (fun j hj => (hmem j).mp hj)
    (fun j hj => by
      have hj1 := (hmem j).mp hj
      have hj2 : j < s.writable_events.length := by rw [hwf.same_length]; exact hj1
      exact ⟨r2 _ (entry_mem _ _ hj1), r3 _ (entry_mem _ _ hj2)⟩)
    (fun j hj hnot => absurd ((hmem j).mpr hj) hnot)
  refine ⟨w1, last, hlast, ?_, ?_⟩
  · simp only [cycle, run, fire]
    exact hrun
  · rw [hrec, f2]
    have hsz : (readable_handler what_r s.rea w).sizes s.bytes_safely_written = SIZE_MAX := r1
    rw [hsz]
    have hfun : (fun i => tee_result
          ((readable_handler what_r s.rea w).pipes (entry s.to_pipes i)).bytes_written
          (envs i).xfer)
        = (fun i => tee_result (w.pipes (entry s.to_pipes i)).bytes_written (envs i).xfer) := by
      funext i
      rw [r5]
    rw [hfun]
    unfold min_held
    congr 2
    exact (hperm.map _).foldr_eq' (fun x _ y _ z => by omega) _

theorem reclaim_requests_min_held_witness :
    ∃ w1 last, [1, 0].getLast? = some last ∧
      run ex_session ex_world
        (cycle 2 (fun _ => 4) (fun _ => ex_env ⟨30, 0⟩ ⟨7, 0⟩) [1, 0]) = some w1 ∧
      w1.reclaims =
        (min_held (fun i => tee_result (ex_world.pipes (entry ex_session.to_pipes i)).bytes_written
            (ex_env ⟨30, 0⟩ ⟨7, 0⟩).xfer) (List.range ex_session.to_pipes.length),
          (ex_env ⟨30, 0⟩ ⟨7, 0⟩).reclaim.ret) :: ex_world.reclaims :=
  reclaim_requests_min_held ex_session ex_session_wf ex_world 2 (fun _ => 4)
    (fun _ => ex_env ⟨30, 0⟩ ⟨7, 0⟩) [1, 0] (by decide)
    (fun _ => (by decide : 4 &&& EV_WRITE ≠ 0))
    (fun _ => (by decide : ¬ ((30 : Int) < 0 ∧ (0 : Int) ≠ EAGAIN)))
    (List.Perm.swap 0 1 [])

/-! ### No double close -/

theorem closeInv_of_same (w w1 : World) (hf : same_flags w.pipes w1.pipes)
    (hc : w1.closes = w.closes) (h : CloseInv w) : CloseInv w1 := by
  refine ⟨fun c hcm => h.attempted_open c (hc ▸ hcm), fun a e => ?_⟩
  rw [hc]
  rcases h.once a e with h0 | ⟨h1, h2⟩
  · exact Or.inl h0
  · refine Or.inr ⟨h1, ?_⟩
    cases e
    · exact (hf a).1.trans h2
    · exact (hf a).2.trans h2

/-- Closing one end under the flag discipline keeps the discipline. -/
theorem closeInv_close_end (res : Int) (a : Nat) (e : PipeEnd) (w : World)
    (h : CloseInv w) : CloseInv (close_end res a e w) := by
  cases e with
  | read =>
    unfold close_end
    simp only []
    split_ifs with hopen hres
    · -- a successful close
      have h0 : successful_closes w.closes a PipeEnd.read = 0 := by
        rcases h.once a PipeEnd.read with h0 | ⟨-, h2⟩
        · exact h0
        · simp only [Pipe.open_flag] at h2
          omega
      refine ⟨?_, fun b e => ?_⟩
      · intro c hc
        rcases List.mem_cons.mp hc with rfl | hc
        · exact hopen
        · exact h.attempted_open c hc
      · by_cases hbe : b = a ∧ e = PipeEnd.read
        · obtain ⟨rfl, rfl⟩ := hbe
          right
          constructor
          · simp only [successful_closes, List.countP_cons] at h0 ⊢
            rw [h0]
            simp [hres]
          · simp [upd, Pipe.open_flag]
        · have hcount : successful_closes
              (⟨a, PipeEnd.read, (w.pipes a).read_fd_is_open, res⟩ :: w.closes) b e
              = successful_closes w.closes b e := by
            simp only [successful_closes, List.countP_cons]
            have : ¬ (a = b ∧ PipeEnd.read = e ∧ res = 0) :=
              fun hh => hbe ⟨hh.1.symm, hh.2.1.symm⟩
            simp [this]
          simp only [hcount]
          rcases h.once b e with h1 | ⟨h1, h2⟩
          · exact Or.inl h1
          · refine Or.inr ⟨h1, ?_⟩
            by_cases hba : b = a
            · subst hba
              cases e
              · exact absurd ⟨rfl, rfl⟩ hbe
              · simpa [upd, Pipe.open_flag] using h2
            · simpa [upd, hba] using h2
    · -- a failed close
      refine ⟨?_, fun b e => ?_⟩
      · intro c hc
        rcases List.mem_cons.mp hc with rfl | hc
        · exact hopen
        · exact h.attempted_open c hc
      · have hcount : successful_closes
            (⟨a, PipeEnd.read, (w.pipes a).read_fd_is_open, res⟩ :: w.closes) b e
            = successful_closes w.closes b e := by
          simp [successful_closes, List.countP_cons, hres]
        simp only [hcount]
        exact h.once b e
    · exact h
  | write =>
    unfold close_end
    simp only []
    split_ifs with hopen hres
    · have h0 : successful_closes w.closes a PipeEnd.write = 0 := by
        rcases h.once a PipeEnd.write with h0 | ⟨-, h2⟩
        · exact h0
        · simp only [Pipe.open_flag] at h2
          omega
      refine ⟨?_, fun b e => ?_⟩
      · intro c hc
        rcases List.mem_cons.mp hc with rfl | hc
        · exact hopen
        · exact h.attempted_open c hc
      · by_cases hbe : b = a ∧ e = PipeEnd.write
        · obtain ⟨rfl, rfl⟩ := hbe
          right
          constructor
          · simp only [successful_closes, List.countP_cons] at h0 ⊢
            rw [h0]
            simp [hres]
          · simp [upd, Pipe.open_flag]
        · have hcount : successful_closes
              (⟨a, PipeEnd.write, (w.pipes a).write_fd_is_open, res⟩ :: w.closes) b e
              = successful_closes w.closes b e := by
            simp only [successful_closes, List.countP_cons]
            have : ¬ (a = b ∧ PipeEnd.write = e ∧ res = 0) :=
              fun hh => hbe ⟨hh.1.symm, hh.2.1.symm⟩
            simp [this]
          simp only [hcount]
          rcases h.once b e with h1 | ⟨h1, h2⟩
          · exact Or.inl h1
          · refine Or.inr ⟨h1, ?_⟩
            by_cases hba : b = a
            · subst hba
              cases e
              · simpa [upd, Pipe.open_flag] using h2
              · exact absurd ⟨rfl, rfl⟩ hbe
            · simpa [upd, hba] using h2
    · refine ⟨?_, fun b e => ?_⟩
      · intro c hc
        rcases List.mem_cons.mp hc with rfl | hc
        · exact hopen
        · exact h.attempted_open c hc
      · have hcount : successful_closes
            (⟨a, PipeEnd.write, (w.pipes a).write_fd_is_open, res⟩ :: w.closes) b e
            = successful_closes w.closes b e := by
          simp [successful_closes, List.countP_cons, hres]
        simp only [hcount]
        exact h.once b e
    · exact h

theorem close_from_pipe_eq (res : Int) (a : Nat) (w : World) :
    close_from_pipe res a w = close_end res a PipeEnd.read w := rfl

theorem closeInv_close_to_pipes (f : Nat → Int) (k : Nat) (ps : List Nat) (w : World)
    (h : CloseInv w) : CloseInv (close_to_pipes f k ps w) := by
  induction ps generalizing k w with
  | nil => exact h
  | cons a rest ih =>
    have hstep : close_to_pipes f k (a :: rest) w
        = close_to_pipes f (k + 1) rest (close_end (f k) a PipeEnd.write w) := rfl
    rw [hstep]
    exact ih _ _ (closeInv_close_end _ _ _ _ h)

theorem closeInv_close_out_pipes (f : Nat → Int) (i : Nat) (ps : List Nat) (w : World)
    (h : CloseInv w) : CloseInv (close_out_pipes f i ps w) := by
  induction ps generalizing i w with
  | nil => exact h
  | cons a rest ih =>
    have hstep : close_out_pipes f i (a :: rest) w
        = close_out_pipes f (i + 1) rest (close_end (f i) a PipeEnd.write w) := by
      simp only [close_out_pipes, close_end]
      congr 1
      split_ifs <;> first | rfl | omega
    rw [hstep]
    exact ih _ _ (closeInv_close_end _ _ _ _ h)

theorem closeInv_pipe_array_close (f : Nat → PipeEnd → Int) (k : Nat) (ps : List Nat)
    (w : World) (h : CloseInv w) : CloseInv (pipe_array_close f k ps w) := by
  induction ps generalizing k w with
  | nil => exact h
  | cons a rest ih =>
    simp only [pipe_array_close]
    exact ih _ _ (closeInv_close_end _ _ _ _ (closeInv_close_end _ _ _ _ h))

theorem closeInv_writable_handler (what : Nat) (wea : writable_ev_args) (env : WritableEnv)
    (w : World) (h : CloseInv w) : CloseInv (writable_handler what wea env w) := by
  unfold writable_handler
  split_ifs
  · exact h
  · obtain ⟨hf, hc, -, -, -⟩ := transfer_frame wea env w
    have h1 : CloseInv (transfer wea env w).world := closeInv_of_same _ _ hf hc h
    cases hp : transfer wea env w with
    | returned w1 =>
      rw [hp] at h1
      exact h1
    | goes_on g l w1 =>
      rw [hp] at h1
      simp only [finish]
      split_ifs
      · rw [close_from_pipe_eq]
        exact closeInv_close_to_pipes _ _ _ _ (closeInv_close_end _ _ _ _ h1)
      · exact closeInv_of_same w1 _ (fun _ => ⟨rfl, rfl⟩) rfl h1
      · exact h1

theorem closeInv_reap_node (env : ReapEnv) (idx : Nat) (pn : p4_node) (sa : sigchld_args)
    (w : World) (h : CloseInv w) : CloseInv (reap_node env idx pn sa w).2 := by
  unfold reap_node
  have h1 : CloseInv (match pn.in_pipes with
      | none => w
      | some ps => pipe_array_close env.close_in 0 ps w) := by
    cases pn.in_pipes with
    | none => exact h
    | some ps => exact closeInv_pipe_array_close _ _ _ _ h
  have h2 : CloseInv (match pn.out_pipes with
      | none => (match pn.in_pipes with
        | none => w
        | some ps => pipe_array_close env.close_in 0 ps w)
      | some ps => close_out_pipes env.close_out 0 ps (match pn.in_pipes with
        | none => w
        | some ps => pipe_array_close env.close_in 0 ps w)) := by
    cases pn.out_pipes with
    | none => exact h1
    | some ps => exact closeInv_close_out_pipes _ _ _ _ h1
  simp only []
  split_ifs
  · exact ⟨h2.attempted_open, h2.once⟩
  · exact h2

theorem closeInv_sigchld_handler (envs : List ReapEnv) (sa : sigchld_args) (w : World)
    (h : CloseInv w) : CloseInv (sigchld_handler envs sa w).2.1 := by
  induction envs generalizing sa w with
  | nil => exact h
  | cons env rest ih =>
    simp only [sigchld_handler]
    split_ifs
    · exact h
    · exact h
    · exact h
    · cases hfind : find_node_by_pid sa.pf env.p with
      | none => exact h
      | some r =>
        obtain ⟨idx, pn⟩ := r
        exact ih _ _ (closeInv_reap_node _ _ _ _ _ h)
    · exact h
    · exact h

/-- C7: start with no close made yet, and run any sequence of
`writable_handler` and `sigchld_handler` invocations, with any arguments and
any answers of the kernel. Then every call of `close` was made while the open
flag of that pipe end was 1; no pipe end has been closed with success more
than once; and an end that has been closed with success is flagged closed
(its flag is 0). -/
theorem no_double_close (st : sigchld_args × World) (is : List Invocation)
    (h0 : st.2.closes = []) :
    (∀ c ∈ (invoke_all st is).2.closes, c.flag = 1) ∧
    (∀ a e, successful_closes (invoke_all st is).2.closes a e ≤ 1) ∧
    (∀ a e, successful_closes (invoke_all st is).2.closes a e = 1 →
      ((invoke_all st is).2.pipes a).open_flag e = 0) := by
  have hstart : CloseInv st.2 := by
    refine ⟨fun c hc => ?_, fun a e => Or.inl ?_⟩
    · rw [h0] at hc
      cases hc
    · rw [h0]
      rfl
  have hall : ∀ (is : List Invocation) (st : sigchld_args × World),
      CloseInv st.2 → CloseInv (invoke_all st is).2 := by
    intro is
    induction is with
    | nil => exact fun _ h => h
    | cons i rest ih =>
      intro st h
      simp only [invoke_all, List.foldl_cons]
      apply ih
      cases i with
      | writable what wea env => exact closeInv_writable_handler _ _ _ _ h
      | sigchld envs => exact closeInv_sigchld_handler _ _ _ h
  have hinv := hall is st hstart
  refine ⟨hinv.attempted_open, fun a e => ?_, fun a e h1 => ?_⟩
  · rcases hinv.once a e with h | ⟨h, -⟩ <;> omega
  · rcases hinv.once a e with h | ⟨-, h⟩
    · omega
    · exact h

theorem no_double_close_witness :
    (∀ c ∈ (invoke_all (ex_sa, ex_fresh)
        [Invocation.writable 4 ex_wea_single (ex_env ⟨0, 0⟩ ⟨0, 0⟩),
         Invocation.sigchld [ex_reap 100 0, ex_reap 101 0]]).2.closes, c.flag = 1) ∧
    (∀ a e, successful_closes (invoke_all (ex_sa, ex_fresh)
        [Invocation.writable 4 ex_wea_single (ex_env ⟨0, 0⟩ ⟨0, 0⟩),
         Invocation.sigchld [ex_reap 100 0, ex_reap 101 0]]).2.closes a e ≤ 1) ∧
    (∀ a e, successful_closes (invoke_all (ex_sa, ex_fresh)
        [Invocation.writable 4 ex_wea_single (ex_env ⟨0, 0⟩ ⟨0, 0⟩),
         Invocation.sigchld [ex_reap 100 0, ex_reap 101 0]]).2.closes a e = 1 →
      ((invoke_all (ex_sa, ex_fresh)
        [Invocation.writable 4 ex_wea_single (ex_env ⟨0, 0⟩ ⟨0, 0⟩),
         Invocation.sigchld [ex_reap 100 0, ex_reap 101 0]]).2.pipes a).open_flag e = 0) :=
  no_double_close (ex_sa, ex_fresh)
    [Invocation.writable 4 ex_wea_single (ex_env ⟨0, 0⟩ ⟨0, 0⟩),
     Invocation.sigchld [ex_reap 100 0, ex_reap 101 0]] rfl

/-! ### The reaper -/

/-- C8, on the code: the first child reaped was terminated by signal 9, the
second (child 101 of node B) exited. The handler stops at the first: child
101 is left unreaped, no node is flagged ended and nothing is counted. Had
the first child exited instead, the handler would have gone on: both nodes
are flagged and the loop exit is requested. -/
theorem signaled_child_stops_reaping :
    observe_reaper (sigchld_handler [ex_reap 100 9, ex_reap 101 0] ex_sa ex_fresh)
      = { n_children_exited := 0, ended := [0, 0], left := [101], loopexits := [] } ∧
    observe_reaper (sigchld_handler [ex_reap 100 0, ex_reap 101 0] ex_sa ex_fresh)
      = { n_children_exited := 2, ended := [1, 1], left := [], loopexits := [(2, 2)] } := by
  decide

/-- C9, as stated, fails: a child that is no node of the graph (pid 999)
exits and is counted, though no node is flagged; when child 100 exits next
the counter reaches the number of nodes (2) and the loop exit is requested
with one node flagged ended. -/
theorem loopexit_with_unflagged_node :
    observe_reaper
      (sigchld_handler [ex_reap 100 0]
        (sigchld_handler [ex_reap 999 0] ex_sa ex_fresh).1
        (sigchld_handler [ex_reap 999 0] ex_sa ex_fresh).2.1)
      = { n_children_exited := 2, ended := [1, 0], left := [], loopexits := [(1, 2)] } := by
  decide

theorem close_end_loopexits (res : Int) (a : Nat) (e : PipeEnd) (w : World) :
    (close_end res a e w).loopexits = w.loopexits := by
  cases e <;> (unfold close_end; simp only []; split_ifs <;> rfl)

theorem close_to_pipes_loopexits (f : Nat → Int) (k : Nat) (ps : List Nat) (w : World) :
    (close_to_pipes f k ps w).loopexits = w.loopexits := by
  induction ps generalizing k w with
  | nil => rfl
  | cons a rest ih =>
    have hstep : close_to_pipes f k (a :: rest) w
        = close_to_pipes f (k + 1) rest (close_end (f k) a PipeEnd.write w) := rfl
    rw [hstep, ih, close_end_loopexits]

theorem close_out_pipes_loopexits (f : Nat → Int) (i : Nat) (ps : List Nat) (w : World) :
    (close_out_pipes f i ps w).loopexits = w.loopexits := by
  induction ps generalizing i w with
  | nil => rfl
  | cons a rest ih =>
    simp only [close_out_pipes]
    rw [ih]
    split_ifs <;> rfl

theorem pipe_array_close_loopexits (f : Nat → PipeEnd → Int) (k : Nat) (ps : List Nat)
    (w : World) : (pipe_array_close f k ps w).loopexits = w.loopexits := by
  induction ps generalizing k w with
  | nil => rfl
  | cons a rest ih =>
    simp only [pipe_array_close]
    rw [ih, close_end_loopexits, close_end_loopexits]

theorem writable_handler_loopexits (what : Nat) (wea : writable_ev_args) (env : WritableEnv)
    (w : World) : (writable_handler what wea env w).loopexits = w.loopexits := by
  unfold writable_handler
  split_ifs
  · rfl
  · have h := (transfer_frame wea env w).2.2.2.2
    cases hp : transfer wea env w with
    | returned w1 =>
      rw [hp] at h
      exact h
    | goes_on g l w1 =>
      rw [hp] at h
      simp only [finish]
      split_ifs
      · rw [close_to_pipes_loopexits, close_from_pipe_eq, close_end_loopexits]
        exact h
      · exact h
      · exact h

/-- What `find_node_by_pid` finds, and what flagging it changes. -/
theorem find_node_by_pid_in_spec (pid : Int) (nodes : List p4_node) (idx : Nat) (pn : p4_node)
    (h : find_node_by_pid_in pid nodes = some (idx, pn)) :
    pn.pid = pid ∧ pn ∈ nodes ∧
    (nodes.set idx { pn with ended := 1 }).map (fun q => q.pid) = nodes.map (fun q => q.pid) ∧
    (pn.ended = 0 →
      (nodes.set idx { pn with ended := 1 }).countP (fun q => decide (q.ended ≠ 0))
        = nodes.countP (fun q => decide (q.ended ≠ 0)) + 1) ∧
    (∀ q ∈ nodes.set idx { pn with ended := 1 }, q.ended ≠ 0 →
      q.pid = pid ∨ (q ∈ nodes ∧ q.ended ≠ 0)) := by
  induction nodes generalizing idx with
  | nil => simp [find_node_by_pid_in] at h
  | cons hd tl ih =>
    simp only [find_node_by_pid_in] at h
    split_ifs at h with hp
    · simp only [Option.some.injEq, Prod.mk.injEq] at h
      obtain ⟨rfl, rfl⟩ := h
      refine ⟨hp.symm, List.mem_cons_self _ _, by simp, fun he => ?_, fun q hq hne => ?_⟩
      · simp [List.countP_cons, he]
      · simp only [List.set_cons_zero, List.mem_cons] at hq
        rcases hq with rfl | hq
        · exact Or.inl hp.symm
        · exact Or.inr ⟨List.mem_cons_of_mem _ hq, hne⟩
    · cases hf : find_node_by_pid_in pid tl with
      | none => simp [hf] at h
      | some r =>
        simp only [hf, Option.map_some', Option.some.injEq, Prod.mk.injEq] at h
        obtain ⟨rfl, rfl⟩ := h
        obtain ⟨i1, i2, i3, i4, i5⟩ := ih r.1 hf
        refine ⟨i1, List.mem_cons_of_mem _ i2, by simp [i3], fun he => ?_, fun q hq hne => ?_⟩
        · simp only [List.set_cons_succ, List.countP_cons, i4 he]
          omega
        · simp only [List.set_cons_succ, List.mem_cons] at hq
          rcases hq with rfl | hq
          · exact Or.inr ⟨List.mem_cons_self _ _, hne⟩
          · rcases i5 q hq hne with h1 | ⟨h1, h2⟩
            · exact Or.inl h1
            · exact Or.inr ⟨List.mem_cons_of_mem _ h1, h2⟩

theorem find_node_by_pid_in_some (pid : Int) (nodes : List p4_node)
    (h : pid ∈ nodes.map (fun q => q.pid)) : ∃ r, find_node_by_pid_in pid nodes = some r := by
  induction nodes with
  | nil => simp at h
  | cons hd tl ih =>
    simp only [find_node_by_pid_in]
    split_ifs with hp
    · exact ⟨_, rfl⟩
    · simp only [List.map_cons, List.mem_cons] at h
      rcases h with h | h
      · exact absurd h hp
      · obtain ⟨r, hr⟩ := ih h
        exact ⟨_, by rw [hr]; rfl⟩

theorem counted_pids_cons (env : ReapEnv) (envs : List ReapEnv) :
    counted_pids (env :: envs)
      = if counted env = true then env.p :: counted_pids envs else counted_pids envs := by
  unfold counted_pids
  by_cases h : counted env = true <;> simp [List.filter_cons, h]

theorem counted_pids_append_sublist (a b : List ReapEnv) :
    (counted_pids b).Sublist (counted_pids (a ++ b)) := by
  unfold counted_pids
  exact ((List.sublist_append_right a b).filter _).map _

theorem good_of_sublist (sa : sigchld_args) (a b : List ReapEnv)
    (hs : (counted_pids b).Sublist (counted_pids a)) (h : Good sa a) : Good sa b :=
  ⟨h.nodup.sublist hs, fun p hp => h.known p (hs.subset hp),
   fun pn hpn hne hm => h.fresh pn hpn hne (hs.subset hm)⟩

theorem reap_node_fst (env : ReapEnv) (idx : Nat) (pn : p4_node) (sa : sigchld_args)
    (w : World) :
    (reap_node env idx pn sa w).1 =
      { n_children_exited := sa.n_children_exited,
        pf := { nodes := sa.pf.nodes.set idx { pn with ended := 1 }, edges := sa.pf.edges } } := by
  unfold reap_node
  simp only []
  split_ifs <;> rfl

theorem reap_node_loopexits (env : ReapEnv) (idx : Nat) (pn : p4_node) (sa : sigchld_args)
    (w : World) :
    (reap_node env idx pn sa w).2.loopexits = w.loopexits ∨
    (sa.n_children_exited = ((sa.pf.nodes.set idx { pn with ended := 1 }).length : Int) ∧
     (reap_node env idx pn sa w).2.loopexits =
      { nodes := sa.pf.nodes.set idx { pn with ended := 1 }, edges := sa.pf.edges }
        :: w.loopexits) := by
  have hw : ∀ (o : Option (List Nat)) (w0 : World),
      (match o with
        | none => w0
        | some ps => close_out_pipes env.close_out 0 ps w0).loopexits = w0.loopexits := by
    intro o w0
    cases o with
    | none => rfl
    | some ps => exact close_out_pipes_loopexits _ _ _ _
  have hw2 : ∀ (o : Option (List Nat)) (w0 : World),
      (match o with
        | none => w0
        | some ps => pipe_array_close env.close_in 0 ps w0).loopexits = w0.loopexits := by
    intro o w0
    cases o with
    | none => rfl
    | some ps => exact pipe_array_close_loopexits _ _ _ _
  unfold reap_node
  simp only []
  split_ifs with hc
  · right
    refine ⟨hc, ?_⟩
    simp only [hw, hw2]
  · left
    simp only [hw, hw2]

/-- One invocation of the reaper keeps the invariant, and leaves the answers
still to come good. -/
theorem reapInv_sigchld_handler (envs later : List ReapEnv) (sa : sigchld_args) (w : World)
    (hinv : ReapInv sa w) (hg : Good sa (envs ++ later)) :
    ReapInv (sigchld_handler envs sa w).1 (sigchld_handler envs sa w).2.1 ∧
    Good (sigchld_handler envs sa w).1 later := by
  induction envs generalizing sa w with
  | nil => exact ⟨hinv, hg⟩
  | cons env rest ih =>
    have hstop : Good sa later :=
      good_of_sublist sa _ _ (counted_pids_append_sublist (env :: rest) later) hg
    simp only [sigchld_handler]
    split_ifs with h1 h2 h3 h4
    · exact ⟨hinv, hstop⟩
    · exact ⟨hinv, hstop⟩
    · exact ⟨hinv, hstop⟩
    · -- the child counts as ended
      have hcounted : counted env = true := by
        simp only [counted, Bool.and_eq_true, decide_eq_true_eq]
        exact ⟨⟨h1, h3⟩, h4⟩
      have hcp : counted_pids (env :: rest ++ later) = env.p :: counted_pids (rest ++ later) := by
        rw [List.cons_append, counted_pids_cons, if_pos hcounted]
      have hgn := hg.nodup
      rw [hcp, List.nodup_cons] at hgn
      have hmem : env.p ∈ counted_pids (env :: rest ++ later) := by
        rw [hcp]; exact List.mem_cons_self _ _
      obtain ⟨r, hr⟩ := find_node_by_pid_in_some env.p sa.pf.nodes (hg.known _ hmem)
      obtain ⟨idx, pn⟩ := r
      have hfind : find_node_by_pid sa.pf env.p = some (idx, pn) := hr
      simp only [hfind]
      obtain ⟨f1, f2, f3, f4, f5⟩ := find_node_by_pid_in_spec env.p sa.pf.nodes idx pn hr
      have hended : pn.ended = 0 := by
        by_contra hne
        exact hg.fresh pn f2 hne (f1 ▸ hmem)
      apply ih
      · rw [reap_node_fst]
        refine ⟨?_, ?_, ?_⟩
        · simp only [count_ended]
          rw [f4 hended]
          have := hinv.count
          simp only [count_ended] at this
          push_cast
          omega
        · intro pf hpf
          rcases reap_node_loopexits env idx pn
              { n_children_exited := sa.n_children_exited + 1, pf := sa.pf } w with hl | ⟨hc, hl⟩
          · rw [hl] at hpf
            exact hinv.exits pf hpf
          · rw [hl] at hpf
            rcases List.mem_cons.mp hpf with rfl | hpf
            · simp only [count_ended]
              rw [f4 hended]
              have := hinv.count
              simp only [count_ended] at this
              simp only [] at hc
              omega
            · exact hinv.exits pf hpf
        · simp only []
          rw [f3]
          exact hinv.pids
      · rw [reap_node_fst]
        have hsub : (counted_pids (rest ++ later)).Sublist
            (counted_pids (env :: rest ++ later)) := by
          rw [hcp]
          exact List.sublist_cons_self _ _
        refine ⟨hgn.2, fun p hp => ?_, fun q hq hne => ?_⟩
        · simp only []
          rw [f3]
          exact hg.known p (hsub.subset hp)
        · simp only [] at hq
          rcases f5 q hq hne with h | ⟨h, h2⟩
          · rw [h]
            exact hgn.1
          · exact fun hm => hg.fresh q h h2 (hsub.subset hm)
    · exact ⟨hinv, hstop⟩
    · exact ⟨hinv, hstop⟩

/-- C9, amended: start with `n_children_exited` at 0, no node flagged ended
and no loop exit requested, in a graph whose nodes have distinct pids. Run
any sequence of handler invocations in which the children that count as ended
(exited, or terminated by signal 13) are children of nodes of the graph and
none is reaped twice. Then `n_children_exited` equals the number of nodes
flagged ended, and at every request of the loop exit the number of nodes
flagged ended was the number of nodes. -/
theorem reaper_completeness (sa : sigchld_args) (w : World) (is : List Invocation)
    (hn : sa.n_children_exited = 0) (he : ∀ pn ∈ sa.pf.nodes, pn.ended = 0)
    (hl : w.loopexits = [])
    (hp : (sa.pf.nodes.map (fun pn => pn.pid)).Nodup)
    (hnd : (counted_pids (reaped is)).Nodup)
    (hk : ∀ p ∈ counted_pids (reaped is), p ∈ sa.pf.nodes.map (fun pn => pn.pid)) :
    (invoke_all (sa, w) is).1.n_children_exited
      = (count_ended (invoke_all (sa, w) is).1.pf : Int) ∧
    ∀ pf ∈ (invoke_all (sa, w) is).2.loopexits, count_ended pf = pf.nodes.length := by
  have hall : ∀ (is : List Invocation) (st : sigchld_args × World),
      ReapInv st.1 st.2 → Good st.1 (reaped is) →
      ReapInv (invoke_all st is).1 (invoke_all st is).2 := by
    intro is
    induction is with
    | nil => exact fun _ h _ => h
    | cons i rest ih =>
      intro st h hg
      simp only [invoke_all, List.foldl_cons]
      cases i with
      | writable what wea env =>
        apply ih
        · exact ⟨h.count, fun pf hpf => h.exits pf
            (by rw [← writable_handler_loopexits what wea env st.2]; exact hpf), h.pids⟩
        · exact hg
      | sigchld envs =>
        obtain ⟨a, b⟩ := reapInv_sigchld_handler envs (reaped rest) st.1 st.2 h hg
        exact ih _ a b
  have hstart : ReapInv sa w := by
    refine ⟨?_, fun pf hpf => absurd hpf (by rw [hl]; exact List.not_mem_nil _), hp⟩
    rw [hn]
    have : count_ended sa.pf = 0 := by
      simp only [count_ended, List.countP_eq_zero, decide_eq_true_eq, not_not]
      exact he
    rw [this]
    rfl
  have hgood : Good sa (reaped is) :=
    ⟨hnd, hk, fun pn hpn hne => absurd (he pn hpn) hne⟩
  have := hall is (sa, w) hstart hgood
  exact ⟨this.count, this.exits⟩

theorem reaper_completeness_witness :
    (invoke_all (ex_sa, ex_fresh)
        [Invocation.sigchld [ex_reap 100 0], Invocation.sigchld [ex_reap 101 13]]).1.n_children_exited
      = (count_ended (invoke_all (ex_sa, ex_fresh)
          [Invocation.sigchld [ex_reap 100 0], Invocation.sigchld [ex_reap 101 13]]).1.pf : Int) ∧
    ∀ pf ∈ (invoke_all (ex_sa, ex_fresh)
        [Invocation.sigchld [ex_reap 100 0], Invocation.sigchld [ex_reap 101 13]]).2.loopexits,
      count_ended pf = pf.nodes.length :=
  reaper_completeness ex_sa ex_fresh
    [Invocation.sigchld [ex_reap 100 0], Invocation.sigchld [ex_reap 101 13]]
    rfl (by decide) rfl (by decide) (by decide) (by decide)

/-! ### Building the graph -/

/-- C10, as stated, fails: the description whose edges are A -> B -> A is
accepted; `p4_file_new` returns the graph with both edges. -/
theorem p4_file_new_accepts_cycle :
    p4_file_new (some ex_cyclic) = some (some ex_cyclic_graph) := by
  decide

theorem range_map_getElem (es : List Json) :
    (List.range es.length).map (fun i => es[i]?) = es.map some := by
  apply List.ext_getElem?
  intro i
  by_cases h : i < es.length
  · simp [h, List.getElem?_range h]
  · have h1 : es.length ≤ i := by omega
    simp [List.getElem?_eq_none, h1]

theorem parse_entries_of_forall {α : Type} (parse : Option Json → Option (Option α))
    (js : List Json) (as : List α)
    (h : List.Forall₂ (fun j a => parse (some j) = some (some a)) js as) :
    parse_entries parse (js.map some) = some (some as) := by
  induction h with
  | nil => rfl
  | cons hd _ ih => simp [parse_entries, hd, ih]

/-- C10, amended: `p4_file_new` does not look for cycles. When the root is
an object whose `nodes` and `edges` are arrays, and every entry parses on its
own (`parse_p4_node`, `parse_p4_edge`), it returns the graph of the parsed
nodes and edges, in order, whatever nodes the edges connect. -/
theorem p4_file_new_of_entries (root : Json) (ns es : List Json) (pns : List p4_node)
    (pes : List p4_edge)
    (hn : json_object_get (some root) "nodes" = some (Json.array ns))
    (he : json_object_get (some root) "edges" = some (Json.array es))
    (hes : List.Forall₂ (fun j pe => parse_p4_edge (some j) = some (some pe)) es pes)
    (hns : List.Forall₂ (fun j pn => parse_p4_node (some j) = some (some pn)) ns pns) :
    p4_file_new (some root) = some (some { nodes := pns, edges := pes }) := by
  have hobj : json_is_object (some root) = true := by
    cases root <;> simp [json_object_get] at hn
    rfl
  have h1 : p4_edge_array_new (some (Json.array es)) es.length = some (some pes) := by
    have hget : json_array_get (some (Json.array es)) = fun i => es[i]? := rfl
    simp only [p4_edge_array_new, json_is_array, hget]
    rw [range_map_getElem]
    exact parse_entries_of_forall _ _ _ hes
  have h2 : p4_node_array_new (some (Json.array ns)) ns.length = some (some pns) := by
    have hget : json_array_get (some (Json.array ns)) = fun i => ns[i]? := rfl
    simp only [p4_node_array_new, json_is_array, hget]
    rw [range_map_getElem]
    exact parse_entries_of_forall _ _ _ hns
  simp [p4_file_new, hobj, hn, he, json_is_array, json_array_size, h1, h2]

theorem p4_file_new_of_entries_witness :
    p4_file_new (some ex_cyclic) = some (some { nodes := ex_cyclic_graph.nodes,
                                                edges := ex_cyclic_graph.edges }) :=
  p4_file_new_of_entries ex_cyclic
    [ex_json_node "A" "cat", ex_json_node "B" "cat"]
    [ex_json_edge "e1" "A" "B", ex_json_edge "e2" "B" "A"]
    ex_cyclic_graph.nodes ex_cyclic_graph.edges rfl rfl
    (List.Forall₂.cons (by decide) (List.Forall₂.cons (by decide) List.Forall₂.nil))
    (List.Forall₂.cons (by decide) (List.Forall₂.cons (by decide) List.Forall₂.nil))

/-! ### Single consumer: the edge counter -/

theorem finish_longs (wea : writable_ev_args) (env : WritableEnv) (p : Progress) :
    (finish wea env p).longs = p.world.longs := by
  cases p with
  | returned w => rfl
  | goes_on g l w =>
    simp only [finish, Progress.world]
    split_ifs
    · rw [(close_to_pipes_frame _ _ _ _).2.2.2.1, (close_from_pipe_frame _ _ _).2.2.2.1]
    · rfl
    · rfl

/-- One firing of the single-consumer handler adds the splice result to the
edge counter when it is positive, and leaves the counter alone otherwise. -/
theorem writable_handler_single_counter (what : Nat) (wea : writable_ev_args)
    (env : WritableEnv) (w : World) (hlen : wea.to_pipes.length = 1) :
    (writable_handler what wea env w).longs (wea.bytes_spliced 0)
      = w.longs (wea.bytes_spliced 0)
        + (if what &&& EV_WRITE ≠ 0 ∧ 0 < env.xfer.ret then env.xfer.ret else 0) := by
  unfold writable_handler
  by_cases hw : what &&& EV_WRITE = 0
  · simp [hw]
  · simp only [hw, if_false, finish_longs, transfer, hlen, if_true, Progress.world,
      ne_eq, not_false_eq_true, true_and]
    by_cases h1 : env.xfer.ret < 0
    · have h2 : ¬ 0 < env.xfer.ret := by omega
      by_cases h3 : env.xfer.errno = EAGAIN <;> simp [write_single, h1, h2, h3]
    · by_cases h2 : 0 < env.xfer.ret
      · simp [write_single, h1, h2, upd]
      · simp [write_single, h1, h2]

theorem run_writable_counter (wea : writable_ev_args) (hlen : wea.to_pipes.length = 1)
    (fs : List (Nat × WritableEnv)) (w : World) :
    (run_writable wea w fs).longs (wea.bytes_spliced 0)
      = w.longs (wea.bytes_spliced 0) + spliced_total fs := by
  induction fs generalizing w with
  | nil => simp [run_writable, spliced_total]
  | cons f rest ih =>
    simp only [run_writable, spliced_total]
    rw [ih, writable_handler_single_counter _ _ _ _ hlen]
    omega

theorem spliced_total_nonneg (fs : List (Nat × WritableEnv)) : 0 ≤ spliced_total fs := by
  induction fs with
  | nil => simp [spliced_total]
  | cons f rest ih =>
    simp only [spliced_total]
    split_ifs with h
    · omega
    · omega

theorem spliced_total_append (fs later : List (Nat × WritableEnv)) :
    spliced_total (fs ++ later) = spliced_total fs + spliced_total later := by
  induction fs with
  | nil => simp [spliced_total]
  | cons f rest ih =>
    rw [List.cons_append, spliced_total, spliced_total, ih]
    omega

theorem parse_p4_edge_bytes_spliced (edge : Option Json) (pe : p4_edge)
    (h : parse_p4_edge edge = some (some pe)) : pe.bytes_spliced = 0 := by
  unfold parse_p4_edge at h
  split_ifs at h
  · simp at h
  · split at h
    · simp at h
    · split at h
      · simp at h
      · simp at h
      · split at h
        · simp at h
        · simp at h
        · simp only [Option.some.injEq] at h
          rw [← h]

/-- C11: take an edge with one outbound pipe whose counter holds the
`bytes_spliced` that `parse_p4_edge` gave the edge (0). After any sequence of
firings of its writable handler the counter equals the sum of the positive
results of the splices made (so N once N bytes have been spliced), and no
further firings make it smaller. -/
theorem single_consumer_counter (wea : writable_ev_args) (hlen : wea.to_pipes.length = 1)
    (edge : Option Json) (pe : p4_edge) (hparse : parse_p4_edge edge = some (some pe))
    (w : World) (h0 : w.longs (wea.bytes_spliced 0) = pe.bytes_spliced)
    (fs later : List (Nat × WritableEnv)) :
    (run_writable wea w fs).longs (wea.bytes_spliced 0) = spliced_total fs ∧
    (run_writable wea w fs).longs (wea.bytes_spliced 0)
      ≤ (run_writable wea w (fs ++ later)).longs (wea.bytes_spliced 0) := by
  have hz := parse_p4_edge_bytes_spliced edge pe hparse
  rw [run_writable_counter wea hlen, run_writable_counter wea hlen, spliced_total_append,
    h0, hz]
  have := spliced_total_nonneg later
  constructor <;> omega

theorem single_consumer_counter_witness :
    (run_writable ex_wea_single ex_fresh (ex_single_firings.take 3)).longs
        (ex_wea_single.bytes_spliced 0) = spliced_total (ex_single_firings.take 3) ∧
    (run_writable ex_wea_single ex_fresh (ex_single_firings.take 3)).longs
        (ex_wea_single.bytes_spliced 0)
      ≤ (run_writable ex_wea_single ex_fresh
          (ex_single_firings.take 3 ++ ex_single_firings.drop 3)).longs
            (ex_wea_single.bytes_spliced 0) :=
  single_consumer_counter ex_wea_single rfl (some (ex_json_edge "e1" "A" "B"))
    { id := some "e1", from_id := some "A", from_port := none, to_id := some "B",
      to_port := none, bytes_spliced := 0 } (by decide) ex_fresh rfl
    (ex_single_firings.take 3) (ex_single_firings.drop 3)

/-! ### Lookup by identifier -/

theorem strlen_of_c_string (cs : List Char) (h : ∀ c ∈ cs, c.toNat ≠ 0) :
    strlen cs = cs.length := by
  induction cs with
  | nil => rfl
  | cons c rest ih =>
    simp only [strlen, h c (List.mem_cons_self _ _), if_false, List.length_cons]
    rw [ih (fun d hd => h d (List.mem_cons_of_mem _ hd))]

theorem char_toNat_inj (c d : Char) (h : c.toNat = d.toNat) : c = d :=
  Char.eq_of_val_eq (UInt32.toNat.inj h)

theorem strncmp_succ (s1 s2 : List Char) (n : Nat) :
    strncmp s1 s2 (n + 1) =
      if first_code s1 ≠ first_code s2 then (first_code s1 : Int) - (first_code s2 : Int)
      else if first_code s1 = 0 then 0
      else strncmp s1.tail s2.tail n := by
  rw [strncmp]

/-- Comparing up to and including the terminator of the second string is
comparing the two strings as a whole. -/
theorem strncmp_eq_zero_iff (a b : List Char) (ha : ∀ c ∈ a, c.toNat ≠ 0)
    (hb : ∀ c ∈ b, c.toNat ≠ 0) : strncmp a b (b.length + 1) = 0 ↔ a = b := by
  induction b generalizing a with
  | nil =>
    cases a with
    | nil => simp [strncmp_succ, first_code]
    | cons c rest =>
      have hc := ha c (List.mem_cons_self _ _)
      rw [strncmp_succ]
      simp only [first_code, ne_eq, hc, not_false_eq_true, if_true]
      constructor
      · intro h
        omega
      · intro h
        cases h
  | cons d bs ih =>
    have hd := hb d (List.mem_cons_self _ _)
    cases a with
    | nil =>
      have hne : (0 : Nat) ≠ d.toNat := fun e => hd e.symm
      rw [strncmp_succ]
      simp only [first_code, ne_eq, hne, not_false_eq_true, if_true]
      constructor
      · intro h
        omega
      · intro h
        cases h
    | cons c rest =>
      have hc := ha c (List.mem_cons_self _ _)
      rw [List.length_cons, strncmp_succ]
      simp only [first_code, List.tail_cons]
      by_cases hcd : c.toNat = d.toNat
      · have hcd2 : c = d := char_toNat_inj c d hcd
        simp only [ne_eq, hcd, not_true_eq_false, if_false, hd]
        rw [ih rest (fun x hx => ha x (List.mem_cons_of_mem _ hx))
          (fun x hx => hb x (List.mem_cons_of_mem _ hx))]
        simp [hcd2]
      · simp only [ne_eq, hcd, not_false_eq_true, if_true]
        constructor
        · intro h
          omega
        · intro h
          simp only [List.cons.injEq] at h
          exact absurd (congrArg Char.toNat h.1) hcd

theorem is_c_string_iff (s : String) :
    is_c_string s = true ↔ ∀ c ∈ s.toList, c.toNat ≠ 0 := by
  simp [is_c_string]

/-- What the comparison of `find_node_by_id` decides. -/
theorem strncmp_id_eq_zero_iff (pn_id id : String) (h1 : is_c_string pn_id = true)
    (h2 : is_c_string id = true) :
    strncmp pn_id.toList id.toList (strlen id.toList + 1) = 0 ↔ pn_id = id := by
  rw [is_c_string_iff] at h1 h2
  rw [strlen_of_c_string _ h2, strncmp_eq_zero_iff _ _ h1 h2]
  exact String.ext_iff.symm

/-- The loop of `find_node_by_id` from index `i` on, when `todo` nodes are
left: it returns the first node from `i` on with the id asked for, or no
node when there is none. -/
theorem find_node_by_id_loop_spec (pf : p4_file) (id : String)
    (hids : ∀ pn ∈ pf.nodes, id_present pn = true) (hq : is_c_string id = true)
    (todo i : Nat) (hlen : i + todo = pf.nodes.length) :
    (∃ k pn, find_node_by_id_loop pf id todo i = some (some (k, pn)) ∧ i ≤ k ∧
      pf.nodes[k]? = some pn ∧ pn.id = some id ∧
      ∀ j, i ≤ j → j < k → ∀ q, pf.nodes[j]? = some q → q.id ≠ some id) ∨
    (find_node_by_id_loop pf id todo i = some none ∧
      ∀ j, i ≤ j → ∀ q, pf.nodes[j]? = some q → q.id ≠ some id) := by
  induction todo generalizing i with
  | zero =>
    right
    refine ⟨rfl, fun j hj q hq2 => ?_⟩
    have : pf.nodes[j]? = none := List.getElem?_eq_none (by omega)
    rw [this] at hq2
    cases hq2
  | succ todo ih =>
    have hi : i < pf.nodes.length := by omega
    have hget : p4_file_get_node pf (i : Int) = some pf.nodes[i] := by
      simp only [p4_file_get_node, get_node]
      have h1 : ¬ ((i : Int) < 0 ∨ (pf.nodes.length : Int) ≤ (i : Int)) := by omega
      rw [if_neg h1]
      simp [hi]
    have hmem : pf.nodes[i] ∈ pf.nodes := List.getElem_mem _
    have hpres := hids _ hmem
    simp only [find_node_by_id_loop, hget]
    cases hid : (pf.nodes[i]).id with
    | none => simp [id_present, hid] at hpres
    | some pn_id =>
      simp only [id_present, hid] at hpres
      simp only []
      by_cases heq : strncmp pn_id.toList id.toList (strlen id.toList + 1) = 0
      · left
        have hsame := (strncmp_id_eq_zero_iff pn_id id hpres hq).mp heq
        refine ⟨i, pf.nodes[i], if_pos heq, le_refl _, by simp [hi], by rw [hid, hsame],
          fun j h1 h2 => by omega⟩
      · have hdiff : pn_id ≠ id :=
          fun e => heq ((strncmp_id_eq_zero_iff pn_id id hpres hq).mpr e)
        have hhere : ∀ q, pf.nodes[i]? = some q → q.id ≠ some id := by
          intro q hq2
          rw [List.getElem?_eq_getElem hi] at hq2
          simp only [Option.some.injEq] at hq2
          rw [← hq2, hid]
          simpa using hdiff
        simp only [heq, if_false]
        rcases ih (i + 1) (by omega) with ⟨k, pn, h1, h2, h3, h4, h5⟩ | ⟨h1, h2⟩
        · left
          refine ⟨k, pn, h1, by omega, h3, h4, fun j hj1 hj2 q hq2 => ?_⟩
          by_cases hji : j = i
          · subst hji
            exact hhere q hq2
          · exact h5 j (by omega) hj2 q hq2
        · right
          refine ⟨h1, fun j hj q hq2 => ?_⟩
          by_cases hji : j = i
          · subst hji
            exact hhere q hq2
          · exact h2 j (by omega) q hq2

/-- C12: in a graph whose node ids are all present (and C strings), for
every query string, `find_node_by_id` either returns the node at the first
index of the node array whose id is the query, as a whole string, or returns
NULL, and then no node has that id. -/
theorem find_node_by_id_first (pf : p4_file) (id : String)
    (hids : ∀ pn ∈ pf.nodes, id_present pn = true) (hq : is_c_string id = true) :
    (∃ k pn, find_node_by_id pf id = some (some (k, pn)) ∧
      pf.nodes[k]? = some pn ∧ pn.id = some id ∧
      ∀ j, j < k → ∀ q, pf.nodes[j]? = some q → q.id ≠ some id) ∨
    (find_node_by_id pf id = some none ∧ ∀ pn ∈ pf.nodes, pn.id ≠ some id) := by
  rcases find_node_by_id_loop_spec pf id hids hq pf.nodes.length 0 (by omega) with
    ⟨k, pn, h1, -, h3, h4, h5⟩ | ⟨h1, h2⟩
  · exact Or.inl ⟨k, pn, h1, h3, h4, fun j hj => h5 j (Nat.zero_le _) hj⟩
  · refine Or.inr ⟨h1, fun pn hpn => ?_⟩
    obtain ⟨j, hj, hjq⟩ := List.getElem_of_mem hpn
    exact h2 j (Nat.zero_le _) pn (by rw [List.getElem?_eq_getElem hj, hjq])

theorem find_node_by_id_first_witness :
    find_node_by_id ex_ids "A" = some (some (1, ex_node "A")) ∧
    ((∃ k pn, find_node_by_id ex_ids "A" = some (some (k, pn)) ∧
      ex_ids.nodes[k]? = some pn ∧ pn.id = some "A" ∧
      ∀ j, j < k → ∀ q, ex_ids.nodes[j]? = some q → q.id ≠ some "A") ∨
    (find_node_by_id ex_ids "A" = some none ∧ ∀ pn ∈ ex_ids.nodes, pn.id ≠ some "A")) :=
  ⟨by decide, find_node_by_id_first ex_ids "A" (by decide) (by decide)⟩

/-! ### Fan-out: the subtraction does not wrap -/

theorem midcyc_of_tee (s : Session) (hwf : s.wf) (w wm : World) (i : Nat)
    (hi : i < s.to_pipes.length) (hinv : CycInv s w)
    (hp : w.pending (entry s.writable_events i) = true)
    (a1 : (wm.pipes (entry s.to_pipes i)).visited ≠ 0 →
      wm.sizes s.bytes_safely_written ≤ (wm.pipes (entry s.to_pipes i)).bytes_written)
    (a2 : wm.sizes s.bytes_safely_written ≤ w.sizes s.bytes_safely_written)
    (b : ∀ x, x ≠ entry s.to_pipes i → wm.pipes x = w.pipes x)
    (e : wm.pending = upd w.pending (entry s.writable_events i) false) : MidCyc s wm := by
  have hi2 : i < s.writable_events.length := by rw [hwf.same_length]; exact hi
  have hcyc : ∀ a ∈ s.to_pipes, (w.pipes a).visited ≠ 0 →
      w.sizes s.bytes_safely_written ≤ (w.pipes a).bytes_written := by
    rcases hinv.cycle with hq | hc
    · rw [hq _ (entry_mem _ _ hi2)] at hp
      cases hp
    · exact hc
  refine ⟨fun a ha hv => ?_, fun j hj hpj => ?_⟩
  · by_cases hai : a = entry s.to_pipes i
    · subst hai
      exact a1 hv
    · rw [b _ hai] at hv ⊢
      exact le_trans a2 (hcyc a ha hv)
  · rw [e] at hpj
    by_cases hji : j = i
    · subst hji
      simp [upd] at hpj
    · have hj2 : j < s.writable_events.length := by rw [hwf.same_length]; exact hj
      have hne : entry s.writable_events j ≠ entry s.writable_events i :=
        fun e2 => hji (entry_inj _ hwf.nodup_events _ _ hj2 hi2 e2)
      simp only [upd, hne, if_false] at hpj
      have hto : entry s.to_pipes j ≠ entry s.to_pipes i :=
        fun e2 => hji (entry_inj _ hwf.nodup_pipes _ _ hj hi e2)
      rw [b _ hto]
      exact hinv.armed j hj hpj

theorem midcyc_before_reclaim (s : Session) (hwf : s.wf) (w : World) (i : Nat)
    (hi : i < s.to_pipes.length) (env : WritableEnv) (hinv : CycInv s w)
    (hp : w.pending (entry s.writable_events i) = true) :
    MidCyc s (before_reclaim s i env w) := by
  have hvis : (w.pipes (entry s.to_pipes i)).visited = 0 := hinv.armed i hi hp
  unfold before_reclaim
  cases ht : tee_step (s.wea i) env.xfer
      { w with pending := upd w.pending (entry s.writable_events i) false } with
  | none =>
    rw [write_multiple_of_none _ _ _ ht]
    exact midcyc_of_tee s hwf w _ i hi hinv hp (fun hv => absurd hvis hv) (le_refl _)
      (fun _ _ => rfl) rfl
  | some w1 =>
    obtain ⟨s1, -, s3, s4, -, -, -⟩ := write_multiple_spec _ _ _ _ ht
    obtain ⟨-, -, -, f4, -, -⟩ := write_multiple_frame (s.wea i) env.xfer
      { w with pending := upd w.pending (entry s.writable_events i) false }
    refine midcyc_of_tee s hwf w _ i hi hinv hp (fun _ => ?_) ?_ s3 f4
    · exact le_of_eq_of_le s4 (le_of_le_of_eq (min_le_right _ _) s1.symm)
    · exact le_of_eq_of_le s4 (min_le_left _ _)

theorem finish_pending (wea : writable_ev_args) (env : WritableEnv) (p : Progress)
    (ev : Nat) (hne : ev ≠ wea.readable_event) :
    (finish wea env p).pending ev = p.world.pending ev := by
  cases p with
  | returned w => rfl
  | goes_on g l w =>
    simp only [finish, Progress.world]
    split_ifs
    · rw [(close_to_pipes_frame _ _ _ _).2.1, (close_from_pipe_frame _ _ _).2.1]
    · simp [event_add, upd, hne]
    · rfl

theorem reclaim_pending (wea : writable_ev_args) (env : WritableEnv) (wm : World) :
    (reclaim wea env wm).world.pending = wm.pending := by
  unfold reclaim
  simp only []
  split_ifs <;> rfl

theorem cyc_finish (s : Session) (hwf : s.wf) (wm : World) (i : Nat) (env : WritableEnv)
    (hm : MidCyc s wm) : CycInv s (finish (s.wea i) env (reclaim (s.wea i) env wm)) := by
  by_cases hl : last_writable_handler s.to_pipes wm.pipes = 1
  · have hall := (last_writable_handler_eq_one_iff _ _).mp hl
    have hq : ∀ ev ∈ s.writable_events,
        (finish (s.wea i) env (reclaim (s.wea i) env wm)).pending ev = false := by
      intro ev hev
      have hne : ev ≠ (s.wea i).readable_event := by
        intro e
        have e2 : ev = s.readable_event := e
        exact hwf.readable_ne (e2 ▸ hev)
      rw [finish_pending _ _ _ _ hne, reclaim_pending]
      obtain ⟨j, hj, rfl⟩ := exists_entry_of_mem _ _ hev
      have hj2 : j < s.to_pipes.length := by rw [← hwf.same_length]; exact hj
      cases hp : wm.pending (entry s.writable_events j) with
      | false => rfl
      | true => exact absurd (hm.armed j hj2 hp) (hall _ (entry_mem _ _ hj2))
    refine ⟨Or.inl hq, fun j hj hp => ?_⟩
    have hj2 : j < s.writable_events.length := by rw [hwf.same_length]; exact hj
    rw [hq _ (entry_mem _ _ hj2)] at hp
    cases hp
  · have hwt : (s.wea i).to_pipes = s.to_pipes := rfl
    have hfin : finish (s.wea i) env (reclaim (s.wea i) env wm) = wm := by
      simp [reclaim, hwt, hl, finish]
    rw [hfin]
    exact ⟨Or.inr hm.cycle, hm.armed⟩

theorem writable_handler_fan_out (s : Session) (hwf : s.wf) (w : World) (i what : Nat)
    (env : WritableEnv) (hw : what &&& EV_WRITE ≠ 0) :
    writable_handler what (s.wea i) env
        { w with pending := upd w.pending (entry s.writable_events i) false }
      = finish (s.wea i) env (reclaim (s.wea i) env (before_reclaim s i env w)) := by
  have hlen : (s.wea i).to_pipes.length ≠ 1 := by
    have := hwf.fan_out
    show s.to_pipes.length ≠ 1
    omega
  simp only [writable_handler, hw, if_false, transfer, hlen, before_reclaim]

theorem cyc_fire (s : Session) (hwf : s.wf) (w w1 : World) (f : Firing) (hinv : CycInv s w)
    (hf : fire s w f = some w1) : CycInv s w1 := by
  cases f with
  | readable what =>
    simp only [fire, Option.some.injEq] at hf
    subst hf
    by_cases hw : what &&& EV_READ = 0
    · simpa [readable_handler, hw] using hinv
    · obtain ⟨-, r2, -, -, -⟩ := readable_handler_spec what s.rea w hw
      exact ⟨Or.inr (fun a ha hv => absurd (r2 a ha) hv),
        fun i hi _ => r2 _ (entry_mem _ _ hi)⟩
  | writable i what env =>
    simp only [fire] at hf
    split_ifs at hf with hc
    simp only [Option.some.injEq] at hf
    subst hf
    obtain ⟨hi, hp⟩ := hc
    by_cases hw : what &&& EV_WRITE = 0
    · simp only [writable_handler, hw, if_true]
      have hi2 : i < s.writable_events.length := by rw [hwf.same_length]; exact hi
      refine ⟨?_, fun j hj hpj => ?_⟩
      · rcases hinv.cycle with hq | hc
        · rw [hq _ (entry_mem _ _ hi2)] at hp
          cases hp
        · exact Or.inr hc
      · by_cases hji : entry s.writable_events j = entry s.writable_events i
        · simp [upd, hji] at hpj
        · simp only [upd, hji, if_false] at hpj
          exact hinv.armed j hj hpj
    · rw [writable_handler_fan_out s hwf w i what env hw]
      exact cyc_finish s hwf _ i env (midcyc_before_reclaim s hwf w i hi env hinv hp)

theorem cyc_run (s : Session) (hwf : s.wf) (fs : List Firing) (w w1 : World)
    (hinv : CycInv s w) (hr : run s w fs = some w1) : CycInv s w1 := by
  induction fs generalizing w with
  | nil =>
    simp only [run, Option.some.injEq] at hr
    subst hr
    exact hinv
  | cons f rest ih =>
    simp only [run] at hr
    cases hf : fire s w f with
    | none => simp [hf] at hr
    | some w2 =>
      simp only [hf] at hr
      exact ih w2 (cyc_fire s hwf w w2 f hinv hf) hr

theorem size_sub_exact (x : Nat) (bytes : Int) (h0 : 0 ≤ bytes) (h : bytes ≤ x)
    (hx : x < 2 ^ 64) : (size_sub x bytes : Int) = x - bytes := by
  unfold size_sub
  omega

/-- C13: let `readable_handler` run with the EV_READ bit set, from any
memory, and any handlers of the group after it, each writable handler only
while its event is pending (so at most once per cycle). When a writable
handler then issues the reclamation splice and it returns `b > 0`, at most
the length requested, every outbound pipe holds `bytes_written` of at least
`b` when the subtraction is made, and the `size_t` subtraction gives
`bytes_written - b` without wrapping. -/
theorem reclaim_no_underflow (s : Session) (hwf : s.wf) (w w1 w2 : World) (what_r : Nat)
    (fs : List Firing) (i what : Nat) (env : WritableEnv) (len : Nat)
    (hr : what_r &&& EV_READ ≠ 0)
    (hrun : run s w (Firing.readable what_r :: fs) = some w1)
    (hfire : fire s w1 (Firing.writable i what env) = some w2)
    (hrec : w2.reclaims = (len, env.reclaim.ret) :: w1.reclaims)
    (hpos : 0 < env.reclaim.ret) (hle : env.reclaim.ret ≤ (len : Int)) :
    ∀ a ∈ s.to_pipes,
      env.reclaim.ret ≤ (((before_reclaim s i env w1).pipes a).bytes_written : Int) ∧
      (((before_reclaim s i env w1).pipes a).bytes_written < 2 ^ 64 →
        ((w2.pipes a).bytes_written : Int)
          = (((before_reclaim s i env w1).pipes a).bytes_written : Int) - env.reclaim.ret) := by
  -- the bounds of the cycle hold when the handler fires
  have hinv : CycInv s w1 := by
    simp only [run, fire] at hrun
    obtain ⟨-, r2, -, -, -⟩ := readable_handler_spec what_r s.rea w hr
    exact cyc_run s hwf fs _ w1
      ⟨Or.inr (fun a ha hv => absurd (r2 a ha) hv), fun j hj _ => r2 _ (entry_mem _ _ hj)⟩ hrun
  simp only [fire] at hfire
  split_ifs at hfire with hc
  simp only [Option.some.injEq] at hfire
  obtain ⟨hi, hp⟩ := hc
  have hm := midcyc_before_reclaim s hwf w1 i hi env hinv hp
  have hrm : (before_reclaim s i env w1).reclaims = w1.reclaims :=
    (write_multiple_frame (s.wea i) env.xfer
      { w1 with pending := upd w1.pending (entry s.writable_events i) false }).2.2.2.2.1
  have hw : what &&& EV_WRITE ≠ 0 := by
    intro h0
    rw [← hfire] at hrec
    simp only [writable_handler, h0, if_true] at hrec
    exact absurd hrec.symm (List.cons_ne_self _ _)
  rw [writable_handler_fan_out s hwf w1 i what env hw] at hfire
  have hwt : (s.wea i).to_pipes = s.to_pipes := rfl
  have hwc : (s.wea i).bytes_safely_written = s.bytes_safely_written := rfl
  have hl : last_writable_handler s.to_pipes (before_reclaim s i env w1).pipes = 1 := by
    by_contra hl
    have hfin : finish (s.wea i) env (reclaim (s.wea i) env (before_reclaim s i env w1))
        = before_reclaim s i env w1 := by
      simp [reclaim, hwt, hl, finish]
    rw [hfin] at hfire
    rw [← hfire, hrm] at hrec
    exact absurd hrec.symm (List.cons_ne_self _ _)
  have hall := (last_writable_handler_eq_one_iff _ _).mp hl
  have hneg : ¬ env.reclaim.ret < 0 := by omega
  have hw2 : w2 = event_add s.readable_event
      { before_reclaim s i env w1 with
        pipes := sub_bytes_written env.reclaim.ret s.to_pipes (before_reclaim s i env w1).pipes,
        reclaims := ((before_reclaim s i env w1).sizes s.bytes_safely_written,
          env.reclaim.ret) :: (before_reclaim s i env w1).reclaims } := by
    rw [← hfire]
    simp [reclaim, hwt, hwc, hl, hneg, hpos, finish]
    rfl
  have hlen : len = (before_reclaim s i env w1).sizes s.bytes_safely_written := by
    rw [hw2] at hrec
    simp only [event_add, hrm] at hrec
    have := (List.cons.inj hrec).1
    simp only [Prod.mk.injEq] at this
    exact this.1.symm
  intro a ha
  have hbound := hm.cycle a ha (hall a ha)
  have hle2 : env.reclaim.ret ≤ (((before_reclaim s i env w1).pipes a).bytes_written : Int) := by
    rw [hlen] at hle
    omega
  refine ⟨hle2, fun hx => ?_⟩
  have hpipes : (w2.pipes a).bytes_written
      = size_sub ((before_reclaim s i env w1).pipes a).bytes_written env.reclaim.ret := by
    rw [hw2]
    simp only [event_add]
    exact sub_bytes_written_of_mem _ _ hwf.nodup_pipes _ _ ha
  rw [hpipes]
  exact size_sub_exact _ _ (by omega) hle2 hx

theorem reclaim_no_underflow_witness :
    ex_end_cycle.reclaims = (7, 5) :: ex_mid_cycle.reclaims ∧
    ∀ a ∈ ex_session.to_pipes,
      (ex_env ⟨50, 0⟩ ⟨5, 0⟩).reclaim.ret
        ≤ (((before_reclaim ex_session 1 (ex_env ⟨50, 0⟩ ⟨5, 0⟩) ex_mid_cycle).pipes
            a).bytes_written : Int) ∧
      (((before_reclaim ex_session 1 (ex_env ⟨50, 0⟩ ⟨5, 0⟩) ex_mid_cycle).pipes
            a).bytes_written < 2 ^ 64 →
        ((ex_end_cycle.pipes a).bytes_written : Int)
          = (((before_reclaim ex_session 1 (ex_env ⟨50, 0⟩ ⟨5, 0⟩) ex_mid_cycle).pipes
              a).bytes_written : Int) - (ex_env ⟨50, 0⟩ ⟨5, 0⟩).reclaim.ret) :=
  have hrec : ex_end_cycle.reclaims = (7, 5) :: ex_mid_cycle.reclaims := by decide
  ⟨hrec, reclaim_no_underflow ex_session ex_session_wf ex_world ex_mid_cycle ex_end_cycle 2
    [Firing.writable 0 4 (ex_env ⟨100, 0⟩ ⟨0, 0⟩)] 1 4 (ex_env ⟨50, 0⟩ ⟨5, 0⟩) 7
    (by decide) rfl rfl hrec (by decide) (by decide)⟩

end Hp4
